import Mathlib

/-!
Thread deadlock example `deadlock.c`.

A verification development for `examples/deadlock.c`.

* Part 1 models `main` as a sequential program: the roster `funcs`, the calls it
  makes (`signal`, `alarm`, `printf`, `pthread_create`, `pthread_join`) and the
  status it ends with when it runs to its end, given the results of the
  `pthread_create` and `pthread_join` calls.
* Part 2 models the process that runs this program under the watchdog alarm: the
  calls made so far, the seconds left, and the abort by `alarmfire`, which can come
  between any two calls. Output, exit status and watchdog are stated over it.
* Part 3 models the eight threads and the orchestrator as an interleaving
  transition system over `globallock`, `speciallock` and `done`.
-/

namespace Deadlock

/-! ## Part 1: `main` as a sequential program -/

/-- The four thread start routines of the file (`other` is the polling waiter). -/
inductive Routine
  | normal
  | irrelevant
  | inverted
  | other
  deriving DecidableEq, Repr

/-- Initialiser of `start_routine funcs[8]` (lines 61-62). -/
def funcsInit : Fin 8 → Routine :=
  ![.normal, .irrelevant, .other, .irrelevant, .inverted, .other, .other, .irrelevant]

/-- The test `strcmp(a, b) == 0` on two C strings. -/
def strcmpIsZero (a b : String) : Bool := decide (a = b)

/-- The roster after lines 61-67: `argv` is the whole argument vector (`argv[0]`
is the program name), `argc` its length.
`if (argc > 1 && strcmp(argv[1], "nolock") == 0) funcs[4] = normal;` -/
def mainFuncs (argv : List String) : Fin 8 → Routine :=
  if 1 < argv.length ∧ strcmpIsZero (argv.getD 1 "") "nolock" = true then
    Function.update funcsInit 4 .normal
  else
    funcsInit

/-- The library calls made by `main`, in program order. -/
inductive Event
  | signalAlarmfire                           -- signal(SIGALRM, alarmfire)
  | alarm (seconds : Nat)                     -- alarm(seconds)
  | printf (text : String)                    -- printf of one status line
  | pthread_create (i : Fin 8) (f : Routine)  -- pthread_create(&threads[i], NULL, funcs[i], NULL)
  | pthread_join (i : Fin 8)                  -- pthread_join(threads[i], NULL)
  deriving DecidableEq, Repr

/-- The program of `main` for given results of its `pthread_create` and
`pthread_join` calls: the calls it makes when it is left to run to its end, and the
status it then ends with (`exit(1)` or `return 0`). Whether the process gets that far
is decided in Part 2, where SIGALRM can end it between any two calls. -/
structure Run where
  events : List Event
  status : Int
  deriving DecidableEq, Repr

/-- The values taken by `i` in `for (i = 0; i < n; ++i)` with `n = 8`. -/
def slots : List (Fin 8) := List.finRange 8

/-- The second loop (lines 78-82) over the remaining values of `i`, followed by
lines 83-85. `join j` is the value returned by `pthread_join(threads[j], NULL)`. -/
def joinLoop (join : Fin 8 → Int) : List (Fin 8) → Run
  | [] => ⟨[.printf "Joined, all is good!\n", .alarm 0], 0⟩
  | i :: rest =>
    let pre := [Event.printf ("Joining " ++ toString i.val ++ "...\n"), .pthread_join i]
    if join i ≠ 0 then ⟨pre, 1⟩
    else
      let r := joinLoop join rest
      ⟨pre ++ r.events, r.status⟩

/-- The first loop (lines 72-76) over the remaining values of `i`, followed by
line 77 and the rest of `main`. `create j` is the value returned by
`pthread_create(&threads[j], NULL, funcs[j], NULL)`. -/
def createLoop (funcs : Fin 8 → Routine) (create join : Fin 8 → Int) : List (Fin 8) → Run
  | [] =>
    let r := joinLoop join slots
    ⟨Event.printf "Up and running!\n" :: r.events, r.status⟩
  | i :: rest =>
    let pre := [Event.printf ("Starting " ++ toString i.val ++ "...\n"), .pthread_create i (funcs i)]
    if create i ≠ 0 then ⟨pre, 1⟩
    else
      let r := createLoop funcs create join rest
      ⟨pre ++ r.events, r.status⟩

/-- The function `main` (lines 57-86) as a program: its calls in order and the status
it ends with when no signal ends the process first (see `Proc`). -/
def main (argv : List String) (create join : Fin 8 → Int) : Run :=
  let r := createLoop (mainFuncs argv) create join slots
  ⟨.signalAlarmfire :: .alarm 8 :: r.events, r.status⟩

/-- The status lines printed by a run, in order. -/
def printed : List Event → List String
  | [] => []
  | .printf t :: es => t :: printed es
  | _ :: es => printed es

/-- Every status line `main` can print, in program order. -/
def allLines : List String :=
  ["Starting 0...\n", "Starting 1...\n", "Starting 2...\n", "Starting 3...\n",
   "Starting 4...\n", "Starting 5...\n", "Starting 6...\n", "Starting 7...\n",
   "Up and running!\n",
   "Joining 0...\n", "Joining 1...\n", "Joining 2...\n", "Joining 3...\n",
   "Joining 4...\n", "Joining 5...\n", "Joining 6...\n", "Joining 7...\n",
   "Joined, all is good!\n"]

/-- The slots for which `pthread_create` was called, in call order. -/
def launched : List Event → List (Fin 8)
  | [] => []
  | .pthread_create i _ :: es => i :: launched es
  | _ :: es => launched es

/-- The slots for which `pthread_join` was called, in call order. -/
def joinedSlots : List Event → List (Fin 8)
  | [] => []
  | .pthread_join i :: es => i :: joinedSlots es
  | _ :: es => joinedSlots es

/-- Calls of a run of the first loop in which every `pthread_create` succeeds. -/
def createEvents (funcs : Fin 8 → Routine) : List (Fin 8) → List Event
  | [] => []
  | i :: l => .printf ("Starting " ++ toString i.val ++ "...\n") :: .pthread_create i (funcs i) ::
      createEvents funcs l

/-- Calls of a run of the second loop in which every `pthread_join` succeeds. -/
def joinEvents : List (Fin 8) → List Event
  | [] => []
  | i :: l => .printf ("Joining " ++ toString i.val ++ "...\n") :: .pthread_join i :: joinEvents l

/-- The announcement of launch `i`. -/
def startLine (i : Fin 8) : String := ("Starting " ++ toString i.val ++ "...\n")

/-- The announcement of join `i`. -/
def joinLine (i : Fin 8) : String := ("Joining " ++ toString i.val ++ "...\n")

/-- The arguments of the `alarm` calls of a run, in call order. -/
def alarms : List Event → List Nat
  | [] => []
  | .alarm n :: es => n :: alarms es
  | _ :: es => alarms es

/-! ## Part 2: the process and its watchdog alarm -/

/-- Process-level state of the watchdog: `idle` before `alarm(8)`, `armed n` while
SIGALRM is due in `n` seconds, `disarmed` after `alarm(0)` cancelled it, `fired`
once SIGALRM was delivered. -/
inductive Watchdog
  | idle
  | armed (remaining : Nat)
  | disarmed
  | fired
  deriving DecidableEq, Repr

/-- How the process ended: `exit(1)` or `return 0` from `main`, `abort()` called by
`alarmfire`, or the default action of SIGALRM when no handler is installed. -/
inductive Ending
  | exited (status : Int)
  | aborted
  | killed
  deriving DecidableEq, Repr

/-- The process: the calls `main` has made so far, the calls it has still to make,
the status it ends with afterwards, whether `alarmfire` is installed for SIGALRM, the
watchdog, and how the process ended (`none` while it runs). -/
structure Proc where
  past : List Event
  todo : List Event
  result : Int
  handler : Bool
  watchdog : Watchdog
  ended : Option Ending
  deriving DecidableEq, Repr

/-- The process at the start of `main`. -/
def Proc.start (r : Run) : Proc :=
  ⟨[], r.events, r.status, false, .idle, none⟩

/-- Effect of `alarm(seconds)` on the watchdog: a non-zero argument schedules SIGALRM,
zero cancels a pending one. -/
def setAlarm (seconds : Nat) (w : Watchdog) : Watchdog :=
  if seconds = 0 then
    match w with
    | .armed _ => .disarmed
    | w => w
  else .armed seconds

/-- Effect of one call of `main` on the process. -/
def perform (e : Event) (p : Proc) : Proc :=
  match e with
  | .signalAlarmfire => { p with handler := true }
  | .alarm n => { p with watchdog := setAlarm n p.watchdog }
  | _ => p

/-- Delivery of SIGALRM: `alarmfire` calls `abort()`. -/
def deliver (p : Proc) : Proc :=
  { p with watchdog := .fired, ended := some (if p.handler then .aborted else .killed) }

/-- What can happen next in the process: `main` makes its next call (or ends with
its status when none is left), or one second elapses. -/
inductive Action
  | call
  | tick
  deriving DecidableEq, Repr

/-- One step of the process; `none` when the process has ended. -/
def procStep (a : Action) (p : Proc) : Option Proc :=
  match p.ended with
  | some _ => none
  | none =>
    match a with
    | .call =>
      match p.todo with
      | [] => some { p with ended := some (.exited p.result) }
      | e :: es => some (perform e { p with past := p.past ++ [e], todo := es })
    | .tick =>
      match p.watchdog with
      | .armed n => if n ≤ 1 then some (deliver p) else some { p with watchdog := .armed (n - 1) }
      | _ => some p

/-- Runs a schedule of actions. -/
def runProc : List Action → Proc → Option Proc
  | [], p => some p
  | a :: as, p => (procStep a p).bind (runProc as)

/-- The schedule in which `main` makes its first `n` calls without delay and then the
eight seconds of the alarm elapse. -/
def callsThenDeadline (n : Nat) : List Action :=
  List.replicate n .call ++ List.replicate 8 .tick

/-- Whether two watchdog states are the same state of the process-level machine
(the seconds left of an armed watchdog are not told apart). -/
def Watchdog.samePhase : Watchdog → Watchdog → Bool
  | .idle, .idle => true
  | .armed _, .armed _ => true
  | .disarmed, .disarmed => true
  | .fired, .fired => true
  | _, _ => false

/-- Invariant of the process running `r`. -/
def ProcInv (r : Run) (p : Proc) : Prop :=
  r.events = p.past ++ p.todo ∧ p.result = r.status ∧
    (match p.watchdog with
     | .idle => (p.past = [] ∨ (p.past = [.signalAlarmfire] ∧ p.handler = true)) ∧
         p.ended = none
     | .armed _ => alarms p.past = [8] ∧ p.handler = true
     | .fired => alarms p.past = [8] ∧ p.ended = some .aborted
     | .disarmed => alarms p.past = [8, 0]) ∧
    (∀ s, p.ended = some (.exited s) → s = r.status ∧ p.todo = []) ∧
    (p.ended = some .aborted ∨ p.ended = some .killed → p.watchdog = .fired)

/-- Shape of the calls of a run of `main`: the handler is installed and the alarm set
to 8 first, and the only later `alarm` call, if any, is a final `alarm(0)`. -/
def AlarmShape (r : Run) : Prop :=
  ∃ rest, r.events = .signalAlarmfire :: .alarm 8 :: rest ∧
    (alarms rest = [] ∨ alarms rest = [0]) ∧ (r.status = 0 → alarms rest = [0])

/-! ## Part 3: the eight threads and the orchestrator

Sequentially consistent interleaving of the statements of the threads. A thread is at
a control point named after the source line it executes next; `done += 1` is a read
(`l27`, `l39`) followed by a write-back (`l27w`, `l39w`). `sleep` only moves the
control point: time is not part of the state. Every `pthread_create` and
`pthread_join` succeeds here (their failure ends the process, see Part 1). -/

/-- The two mutexes of the file. -/
inductive Mutex
  | globallock
  | speciallock
  deriving DecidableEq, Repr, Fintype

/-- Control points of the thread routines: `lN` is "about to execute line N". -/
inductive Loc
  | l15 | l16 | l17 | l18
  | l23 | l24 | l25 | l26 | l27 | l27w | l28 | l29 | l30
  | l35 | l36 | l37 | l38 | l39 | l39w | l40 | l41 | l42
  | l47 | l48 | l49
  deriving DecidableEq, Repr, Fintype

/-- The statements of the thread routines, each with the control point(s) that follow. -/
inductive Instr
  | sleep (seconds : Nat) (next : Loc)      -- sleep(seconds);
  | lock (m : Mutex) (next : Loc)           -- pthread_mutex_lock(&m);
  | unlock (m : Mutex) (next : Loc)         -- pthread_mutex_unlock(&m);
  | load (next : Loc)                       -- the read of `done` in `done += 1;`
  | store (next : Loc)                      -- the write-back of `done += 1;`
  | whileDone (body exit : Loc)             -- the test of `while (done < 2)`
  | ret                                     -- return NULL;
  deriving DecidableEq, Repr

/-- The statement at each control point (lines 13-50). -/
def code : Loc → Instr
  -- irrelevant
  | .l15 => .sleep 2 .l16
  | .l16 => .lock .globallock .l17
  | .l17 => .unlock .globallock .l18
  | .l18 => .ret
  -- normal
  | .l23 => .lock .globallock .l24
  | .l24 => .sleep 1 .l25
  | .l25 => .lock .speciallock .l26
  | .l26 => .sleep 1 .l27
  | .l27 => .load .l27w
  | .l27w => .store .l28
  | .l28 => .unlock .speciallock .l29
  | .l29 => .unlock .globallock .l30
  | .l30 => .ret
  -- inverted
  | .l35 => .lock .speciallock .l36
  | .l36 => .sleep 1 .l37
  | .l37 => .lock .globallock .l38
  | .l38 => .sleep 1 .l39
  | .l39 => .load .l39w
  | .l39w => .store .l40
  | .l40 => .unlock .globallock .l41
  | .l41 => .unlock .speciallock .l42
  | .l42 => .ret
  -- other
  | .l47 => .whileDone .l48 .l49
  | .l48 => .sleep 1 .l47
  | .l49 => .ret

/-- First statement of each routine. -/
def entry : Routine → Loc
  | .irrelevant => .l15
  | .normal => .l23
  | .inverted => .l35
  | .other => .l47

/-- Control point of `main` in the part that matters to the threads: about to call
`pthread_create` for slot `i` (line 74), about to call `pthread_join` for slot `i`
(line 80), or past the second loop (`return 0`). -/
inductive Main
  | create (i : Fin 8)
  | join (i : Fin 8)
  | returned
  deriving DecidableEq, Repr

/-- The shared variable `done`, the owner of each mutex (`none` when unlocked,
`some i` when locked by thread `i`), the control point of each thread, the value each
thread read from `done` for its `done += 1`, and the control point of `main`. -/
structure State where
  done : Int
  owner : Mutex → Option (Fin 8)
  pc : Fin 8 → Loc
  reg : Fin 8 → Int
  main : Main

/-- The state when `main` enters its first loop with roster `funcs`: both mutexes
unlocked (`PTHREAD_MUTEX_INITIALIZER`), `done = 0`, and thread `i`, once created,
starts at the first statement of `funcs[i]`. -/
def init (funcs : Fin 8 → Routine) : State :=
  { done := 0, owner := fun _ => none,
    pc := fun i => entry (funcs i), reg := fun _ => 0, main := .create 0 }

/-- Whether `pthread_create` has been called for slot `i`. -/
def started : Main → Fin 8 → Bool
  | .create k, i => decide (i < k)
  | _, _ => true

/-- Thread `i` moves to control point `l`. -/
def goto (s : State) (i : Fin 8) (l : Loc) : State :=
  { s with pc := Function.update s.pc i l }

/-- Thread `i` executes one statement; `none` when it blocks on a locked mutex or has
returned. -/
def exec (i : Fin 8) (s : State) : Instr → Option State
  | .sleep _ next => some (goto s i next)
  | .lock m next =>
    if s.owner m = none then
      some { goto s i next with owner := Function.update s.owner m (some i) }
    else none
  | .unlock m next => some { goto s i next with owner := Function.update s.owner m none }
  | .load next => some { goto s i next with reg := Function.update s.reg i s.done }
  | .store next => some { goto s i next with done := s.reg i + 1 }
  | .whileDone body exit => some (goto s i (if s.done < 2 then body else exit))
  | .ret => none

/-- One statement of thread `i`; `none` when the thread is not created yet, blocked on
a mutex, or has returned. -/
def stepThread (i : Fin 8) (s : State) : Option State :=
  if started s.main i = true then exec i s (code (s.pc i)) else none

/-- Whether a thread at this control point has returned from its routine. -/
def returned (l : Loc) : Bool := decide (code l = .ret)

/-- The slot after `i` in `for (i = 0; i < n; ++i)`, if any. -/
def nextSlot (i : Fin 8) : Option (Fin 8) :=
  if h : i.val + 1 < 8 then some ⟨i.val + 1, h⟩ else none

/-- One step of `main`: a `pthread_create` call, or a `pthread_join` call, which
returns only once the thread has returned. -/
def stepMain (s : State) : Option State :=
  match s.main with
  | .create i =>
    some { s with main := match nextSlot i with
                          | some k => .create k
                          | none => .join 0 }
  | .join i =>
    if returned (s.pc i) = true then
      some { s with main := match nextSlot i with
                            | some k => .join k
                            | none => .returned }
    else none
  | .returned => none

/-- Who takes the next step. -/
inductive Agent
  | main
  | thread (i : Fin 8)
  deriving DecidableEq, Repr

/-- One step of the system. -/
def step (a : Agent) (s : State) : Option State :=
  match a with
  | .main => stepMain s
  | .thread i => stepThread i s

/-- Runs a schedule. -/
def run : List Agent → State → Option State
  | [], s => some s
  | a :: as, s => (step a s).bind (run as)

/-- The state `t` is reachable from `s` by some interleaving. -/
def Reach (s t : State) : Prop := ∃ sched, run sched s = some t

/-- The states reachable in the process whose roster is `funcs`. -/
def Reachable (funcs : Fin 8 → Routine) (s : State) : Prop := Reach (init funcs) s

/-- Thread `i` is blocked in `pthread_mutex_lock(&m)`. -/
def blockedOn (s : State) (i : Fin 8) (m : Mutex) : Prop :=
  started s.main i = true ∧ (∃ next, code (s.pc i) = .lock m next) ∧ s.owner m ≠ none

/-- The schedule that lets `a` take `n` steps in a row. -/
def times (n : Nat) (a : Agent) : List Agent := List.replicate n a

/-- Control points at which the thread has locked `m` and not yet unlocked it. -/
def holds : Mutex → Loc → Bool
  | .globallock, .l17 => true
  | .globallock, .l24 | .globallock, .l25 | .globallock, .l26 | .globallock, .l27 => true
  | .globallock, .l27w | .globallock, .l28 | .globallock, .l29 => true
  | .globallock, .l38 | .globallock, .l39 | .globallock, .l39w | .globallock, .l40 => true
  | .speciallock, .l26 | .speciallock, .l27 | .speciallock, .l27w | .speciallock, .l28 => true
  | .speciallock, .l36 | .speciallock, .l37 | .speciallock, .l38 | .speciallock, .l39 => true
  | .speciallock, .l39w | .speciallock, .l40 | .speciallock, .l41 => true
  | _, _ => false

/-- The routine a control point belongs to. -/
def routineOf : Loc → Routine
  | .l15 | .l16 | .l17 | .l18 => .irrelevant
  | .l23 | .l24 | .l25 | .l26 | .l27 | .l27w | .l28 | .l29 | .l30 => .normal
  | .l35 | .l36 | .l37 | .l38 | .l39 | .l39w | .l40 | .l41 | .l42 => .inverted
  | .l47 | .l48 | .l49 => .other

/-- Control points inside `done += 1`: before the read, or between read and write-back. -/
def atIncrement (l : Loc) : Bool :=
  match code l with
  | .load _ | .store _ => true
  | _ => false

/-- Control points between the read and the write-back of `done += 1`. -/
def atStore (l : Loc) : Bool :=
  match code l with
  | .store _ => true
  | _ => false

/-- Control points after the `done += 1` of a lock-ordering routine. -/
def passed : Loc → Bool
  | .l28 | .l29 | .l30 | .l40 | .l41 | .l42 => true
  | _ => false

/-- Number of threads that have completed their `done += 1`. -/
def passedCount (s : State) : Nat :=
  (Finset.univ.filter (fun j => passed (s.pc j) = true)).card

/-- Whether `pthread_join` has returned for slot `j`. -/
def joinedBy : Main → Fin 8 → Bool
  | .create _, _ => false
  | .join k, j => decide (j < k)
  | .returned, _ => true

/-- Invariant of the reachable states, for any roster. -/
structure Inv (funcs : Fin 8 → Routine) (s : State) : Prop where
  own : ∀ m j, s.owner m = some j ↔ holds m (s.pc j) = true
  reg : ∀ j, atStore (s.pc j) = true → s.reg j = s.done
  routine : ∀ j, routineOf (s.pc j) = funcs j
  fresh : ∀ j, started s.main j = false → s.pc j = entry (funcs j)
  joined : ∀ j, joinedBy s.main j = true → returned (s.pc j) = true
  count : s.done = passedCount s
  waiter : ∀ j, s.pc j = .l49 → 2 ≤ s.done

/-- A schedule in which the threads run one after the other: `main` launches all
eight, slot 0 runs to its end, then slot 4, then the `irrelevant` threads, then the
waiters, and `main` joins them all. -/
def serialSchedule : List Agent :=
  times 8 .main ++ times 8 (.thread 0) ++ times 8 (.thread 4) ++
    times 3 (.thread 1) ++ times 3 (.thread 3) ++ times 3 (.thread 7) ++
    [.thread 2, .thread 5, .thread 6] ++ times 8 .main

/-- A schedule that leads the default roster into the circular wait: `main` launches
all eight, slot 0 locks `globallock` and sleeps, slot 4 locks `speciallock` and sleeps. -/
def crossSchedule : List Agent :=
  times 8 .main ++ times 2 (.thread 0) ++ times 2 (.thread 4)

/-- Slot 0 owns `globallock`, slot 4 owns `speciallock`, and `done` is still 0: each of
the two lock-ordering threads holds its first mutex and has not got its second. -/
def Crossed (s : State) : Prop :=
  s.owner .globallock = some 0 ∧ s.owner .speciallock = some 4 ∧ s.done = 0

/-- Slot 0 holds `globallock` and is blocked on `speciallock` while slot 4 holds
`speciallock` and is blocked on `globallock`. -/
def CircularWait (s : State) : Prop :=
  s.owner .globallock = some 0 ∧ blockedOn s 0 .speciallock ∧
  s.owner .speciallock = some 4 ∧ blockedOn s 4 .globallock

/-- A deadlock: a non-empty set of threads, each blocked on a mutex owned by a thread
of the set. -/
def Deadlocked (s : State) : Prop :=
  ∃ D : Finset (Fin 8), D.Nonempty ∧
    ∀ i ∈ D, ∃ m, blockedOn s i m ∧ ∃ j ∈ D, s.owner m = some j

/-- A schedule in which slot 4 takes `speciallock` first and slot 0 takes `globallock`
after it. -/
def crossScheduleInverted : List Agent :=
  times 8 .main ++ [.thread 4, .thread 0]

/-- Some further steps: slots 0 and 4 finish their `sleep(1)`, a waiter polls. -/
def pollSchedule : List Agent :=
  [.thread 0, .thread 4, .thread 5, .thread 5]

/-- Number of statements a thread at this control point still executes before it
returns, when it is not blocked and its loop test finds `done >= 2`. -/
def remaining : Loc → Nat
  | .l15 => 3 | .l16 => 2 | .l17 => 1 | .l18 => 0
  | .l23 => 8 | .l24 => 7 | .l25 => 6 | .l26 => 5 | .l27 => 4 | .l27w => 3
  | .l28 => 2 | .l29 => 1 | .l30 => 0
  | .l35 => 8 | .l36 => 7 | .l37 => 6 | .l38 => 5 | .l39 => 4 | .l39w => 3
  | .l40 => 2 | .l41 => 1 | .l42 => 0
  | .l47 => 1 | .l48 => 2 | .l49 => 0

/-- Number of `pthread_create` and `pthread_join` calls `main` has still to make. -/
def mainRemaining : Main → Nat
  | .create i => 16 - i.val
  | .join i => 8 - i.val
  | .returned => 0

/-- Variant used to show that the `nolock` roster can always run to its end. -/
def variant (s : State) : Nat :=
  (∑ j, remaining (s.pc j)) + mainRemaining s.main

/-- Statements that never block and are not the loop test. -/
def codeFree (l : Loc) : Bool :=
  match code l with
  | .sleep _ _ | .unlock _ _ | .load _ | .store _ => true
  | _ => false

/-- A schedule after which slot 0 holds `globallock` and every thread is launched. -/
def holdSchedule : List Agent :=
  times 8 .main ++ times 2 (.thread 0)

/-! ## Theorems -/

theorem slots_eq : slots = [0, 1, 2, 3, 4, 5, 6, 7] := by decide

theorem split_first_failure (f : Fin 8 → Int) (l : List (Fin 8)) :
    (∀ i ∈ l, f i = 0) ∨
    ∃ l1 j l2, l = l1 ++ j :: l2 ∧ (∀ i ∈ l1, f i = 0) ∧ f j ≠ 0 := by
  induction l with
  | nil => left; simp
  | cons a l ih =>
    by_cases ha : f a = 0
    · rcases ih with h | ⟨l1, j, l2, rfl, h1, hj⟩
      · left
        intro i hi
        rcases List.mem_cons.mp hi with rfl | hi
        · exact ha
        · exact h i hi
      · right
        refine ⟨a :: l1, j, l2, rfl, ?_, hj⟩
        intro i hi
        rcases List.mem_cons.mp hi with rfl | hi
        · exact ha
        · exact h1 i hi
    · right
      exact ⟨[], a, l, rfl, by simp, ha⟩

theorem joinLoop_ok (join : Fin 8 → Int) (l : List (Fin 8)) (h : ∀ i ∈ l, join i = 0) :
    joinLoop join l = ⟨joinEvents l ++ [.printf "Joined, all is good!\n", .alarm 0], 0⟩ := by
  induction l with
  | nil => rfl
  | cons a l ih =>
    have ha : join a = 0 := h a (List.mem_cons_self _ _)
    have hl : ∀ i ∈ l, join i = 0 := fun i hi => h i (List.mem_cons_of_mem _ hi)
    simp [joinLoop, ha, ih hl, joinEvents]

theorem joinLoop_fail (join : Fin 8 → Int) (l1 : List (Fin 8)) (j : Fin 8) (l2 : List (Fin 8))
    (h : ∀ i ∈ l1, join i = 0) (hj : join j ≠ 0) :
    joinLoop join (l1 ++ j :: l2) = ⟨joinEvents (l1 ++ [j]), 1⟩ := by
  induction l1 with
  | nil => simp [joinLoop, hj, joinEvents]
  | cons a l ih =>
    have ha : join a = 0 := h a (List.mem_cons_self _ _)
    have hl : ∀ i ∈ l, join i = 0 := fun i hi => h i (List.mem_cons_of_mem _ hi)
    simp [joinLoop, ha, ih hl, joinEvents]

theorem createLoop_ok (funcs : Fin 8 → Routine) (create join : Fin 8 → Int)
    (l : List (Fin 8)) (h : ∀ i ∈ l, create i = 0) :
    createLoop funcs create join l =
      ⟨createEvents funcs l ++ .printf "Up and running!\n" :: (joinLoop join slots).events,
        (joinLoop join slots).status⟩ := by
  induction l with
  | nil => rfl
  | cons a l ih =>
    have ha : create a = 0 := h a (List.mem_cons_self _ _)
    have hl : ∀ i ∈ l, create i = 0 := fun i hi => h i (List.mem_cons_of_mem _ hi)
    simp [createLoop, ha, ih hl, createEvents]

theorem createLoop_fail (funcs : Fin 8 → Routine) (create join : Fin 8 → Int)
    (l1 : List (Fin 8)) (i : Fin 8) (l2 : List (Fin 8))
    (h : ∀ k ∈ l1, create k = 0) (hi : create i ≠ 0) :
    createLoop funcs create join (l1 ++ i :: l2) = ⟨createEvents funcs (l1 ++ [i]), 1⟩ := by
  induction l1 with
  | nil => simp [createLoop, hi, createEvents]
  | cons a l ih =>
    have ha : create a = 0 := h a (List.mem_cons_self _ _)
    have hl : ∀ k ∈ l, create k = 0 := fun k hk => h k (List.mem_cons_of_mem _ hk)
    simp [createLoop, ha, ih hl, createEvents]

theorem printed_append (a b : List Event) : printed (a ++ b) = printed a ++ printed b := by
  induction a with
  | nil => rfl
  | cons e a ih => cases e <;> simp [printed, ih]

theorem launched_append (a b : List Event) : launched (a ++ b) = launched a ++ launched b := by
  induction a with
  | nil => rfl
  | cons e a ih => cases e <;> simp [launched, ih]

theorem joinedSlots_append (a b : List Event) :
    joinedSlots (a ++ b) = joinedSlots a ++ joinedSlots b := by
  induction a with
  | nil => rfl
  | cons e a ih => cases e <;> simp [joinedSlots, ih]

theorem printed_createEvents (funcs : Fin 8 → Routine) (l : List (Fin 8)) :
    printed (createEvents funcs l) = l.map startLine := by
  induction l with
  | nil => rfl
  | cons a l ih => simp [createEvents, printed, ih, startLine]

theorem printed_joinEvents (l : List (Fin 8)) : printed (joinEvents l) = l.map joinLine := by
  induction l with
  | nil => rfl
  | cons a l ih => simp [joinEvents, printed, ih, joinLine]

theorem launched_createEvents (funcs : Fin 8 → Routine) (l : List (Fin 8)) :
    launched (createEvents funcs l) = l := by
  induction l with
  | nil => rfl
  | cons a l ih => simp [createEvents, launched, ih]

theorem joinedSlots_createEvents (funcs : Fin 8 → Routine) (l : List (Fin 8)) :
    joinedSlots (createEvents funcs l) = [] := by
  induction l with
  | nil => rfl
  | cons a l ih => simp [createEvents, joinedSlots, ih]

theorem joinedSlots_joinEvents (l : List (Fin 8)) : joinedSlots (joinEvents l) = l := by
  induction l with
  | nil => rfl
  | cons a l ih => simp [joinEvents, joinedSlots, ih]

theorem launched_joinEvents (l : List (Fin 8)) : launched (joinEvents l) = [] := by
  induction l with
  | nil => rfl
  | cons a l ih => simp [joinEvents, launched, ih]

theorem allLines_eq :
    allLines = slots.map startLine ++ "Up and running!\n" :: (slots.map joinLine ++
      ["Joined, all is good!\n"]) := by decide

theorem main_events_ok (argv : List String) (create join : Fin 8 → Int)
    (hc : ∀ i ∈ slots, create i = 0) (hj : ∀ j ∈ slots, join j = 0) :
    main argv create join =
      ⟨.signalAlarmfire :: .alarm 8 :: (createEvents (mainFuncs argv) slots ++
        .printf "Up and running!\n" :: (joinEvents slots ++
          [.printf "Joined, all is good!\n", .alarm 0])), 0⟩ := by
  simp only [main, createLoop_ok _ _ _ _ hc, joinLoop_ok _ _ hj]

theorem main_events_join_fail (argv : List String) (create join : Fin 8 → Int)
    (hc : ∀ i ∈ slots, create i = 0) (m1 : List (Fin 8)) (j : Fin 8) (m2 : List (Fin 8))
    (hs : slots = m1 ++ j :: m2) (h1 : ∀ k ∈ m1, join k = 0) (hj : join j ≠ 0) :
    main argv create join =
      ⟨.signalAlarmfire :: .alarm 8 :: (createEvents (mainFuncs argv) slots ++
        .printf "Up and running!\n" :: joinEvents (m1 ++ [j])), 1⟩ := by
  have hjl : joinLoop join slots = ⟨joinEvents (m1 ++ [j]), 1⟩ := by
    rw [hs]; exact joinLoop_fail join m1 j m2 h1 hj
  simp only [main, createLoop_ok _ _ _ _ hc, hjl]

theorem main_events_create_fail (argv : List String) (create join : Fin 8 → Int)
    (l1 : List (Fin 8)) (i : Fin 8) (l2 : List (Fin 8))
    (hs : slots = l1 ++ i :: l2) (h1 : ∀ k ∈ l1, create k = 0) (hi : create i ≠ 0) :
    main argv create join =
      ⟨.signalAlarmfire :: .alarm 8 :: createEvents (mainFuncs argv) (l1 ++ [i]), 1⟩ := by
  have hcl : createLoop (mainFuncs argv) create join slots =
      ⟨createEvents (mainFuncs argv) (l1 ++ [i]), 1⟩ := by
    rw [hs]; exact createLoop_fail _ create join l1 i l2 h1 hi
  simp only [main, hcl]

theorem printed_signal (es : List Event) : printed (.signalAlarmfire :: es) = printed es := rfl
theorem printed_alarm (n : Nat) (es : List Event) : printed (.alarm n :: es) = printed es := rfl
theorem printed_printf (t : String) (es : List Event) :
    printed (.printf t :: es) = t :: printed es := rfl

/-- The program `main`, left to run to its end, prints a prefix of the eighteen status
lines, and all of them exactly when the eight launches and the eight joins succeed. -/
theorem main_program_lines (argv : List String) (create join : Fin 8 → Int) :
    printed (main argv create join).events <+: allLines ∧
    (printed (main argv create join).events = allLines ↔
      (∀ i, create i = 0) ∧ ∀ j, join j = 0) := by
  have hlen : slots.length = 8 := by decide
  have hall : allLines.length = 18 := by decide
  have hmem : ∀ i : Fin 8, i ∈ slots := by decide
  rcases split_first_failure create slots with hc | ⟨l1, i, l2, hs, h1, hi⟩
  · rcases split_first_failure join slots with hj | ⟨m1, j, m2, hs, h1, hj⟩
    · have hp : printed (main argv create join).events = allLines := by
        rw [main_events_ok argv create join hc hj, allLines_eq]
        simp only [printed_signal, printed_alarm, printed_printf, printed_append,
          printed_createEvents, printed_joinEvents]
        rfl
      exact ⟨hp ▸ List.prefix_refl _,
        fun _ => ⟨fun i => hc i (hmem i), fun j => hj j (hmem j)⟩, fun _ => hp⟩
    · have hp : printed (main argv create join).events =
          slots.map startLine ++ "Up and running!\n" :: (m1 ++ [j]).map joinLine := by
        rw [main_events_join_fail argv create join hc m1 j m2 hs h1 hj]
        simp only [printed_signal, printed_alarm, printed_printf, printed_append,
          printed_createEvents, printed_joinEvents]
      have hm : m1.length + 1 + m2.length = 8 := by
        have := congrArg List.length hs
        simp at this; omega
      refine ⟨?_, ?_, ?_⟩
      · have e1 : slots.map joinLine = m1.map joinLine ++ joinLine j :: m2.map joinLine := by
          rw [hs]; simp
        rw [hp, allLines_eq, e1]
        exact ⟨m2.map joinLine ++ ["Joined, all is good!\n"], by simp⟩
      · intro he
        have := congrArg List.length he
        rw [hp, hall] at this
        simp at this; omega
      · intro h; exact absurd (h.2 j) hj
  · have hp : printed (main argv create join).events = (l1 ++ [i]).map startLine := by
      rw [main_events_create_fail argv create join l1 i l2 hs h1 hi]
      simp only [printed_signal, printed_alarm, printed_printf, printed_append,
        printed_createEvents, printed_joinEvents]
    have hm : l1.length + 1 + l2.length = 8 := by
      have := congrArg List.length hs
      simp at this; omega
    refine ⟨?_, ?_, ?_⟩
    · have e1 : slots.map startLine = l1.map startLine ++ startLine i :: l2.map startLine := by
        rw [hs]; simp
      rw [hp, allLines_eq, e1]
      exact ⟨l2.map startLine ++ "Up and running!\n" :: (slots.map joinLine ++
        ["Joined, all is good!\n"]), by simp⟩
    · intro he
      have := congrArg List.length he
      rw [hp, hall] at this
      simp at this; omega
    · intro h; exact absurd (h.1 i) hi

theorem mainFuncs_cases (argv : List String) :
    (argv.get? 1 = some "nolock" ∧ mainFuncs argv = Function.update funcsInit 4 .normal) ∨
    (argv.get? 1 ≠ some "nolock" ∧ mainFuncs argv = funcsInit) := by
  match argv with
  | [] => right; simp [mainFuncs]
  | [_] => right; simp [mainFuncs]
  | _ :: a :: rest =>
    by_cases h : a = "nolock"
    · left; simp [mainFuncs, strcmpIsZero, h]
    · right; simp [mainFuncs, strcmpIsZero, h]

/-- C1: the roster has 8 slots; with no argument it is
[normal, irrelevant, waiter, irrelevant, inverted, waiter, waiter, irrelevant]
(`other` is the waiter), with the single argument `nolock` slot 4 is `normal` instead,
and for every argument vector the slots other than slot 4 are those of `funcsInit`. -/
theorem main_roster (prog : String) :
    List.ofFn (mainFuncs [prog]) =
      [.normal, .irrelevant, .other, .irrelevant, .inverted, .other, .other, .irrelevant] ∧
    List.ofFn (mainFuncs [prog, "nolock"]) =
      [.normal, .irrelevant, .other, .irrelevant, .normal, .other, .other, .irrelevant] ∧
    (List.ofFn (mainFuncs [prog])).length = 8 ∧
    (List.ofFn (mainFuncs [prog, "nolock"])).length = 8 ∧
    ∀ (argv : List String) (i : Fin 8), i ≠ 4 → mainFuncs argv i = mainFuncs [prog] i := by
  have h1 : mainFuncs [prog] = funcsInit := by simp [mainFuncs]
  have h2 : mainFuncs [prog, "nolock"] = Function.update funcsInit 4 .normal := by
    simp [mainFuncs, strcmpIsZero]
  refine ⟨?_, ?_, by simp, by simp, ?_⟩
  · rw [h1]; decide
  · rw [h2]; decide
  · intro argv i hi
    rw [h1]
    rcases mainFuncs_cases argv with ⟨_, h⟩ | ⟨_, h⟩
    · rw [h, Function.update_noteq hi]
    · rw [h]

theorem main_roster_witness :
    (2 : Fin 8) ≠ 4 ∧ mainFuncs ["deadlock", "nolock", "x"] 2 = mainFuncs ["deadlock"] 2 :=
  ⟨by decide, (main_roster "deadlock").2.2.2.2 _ 2 (by decide)⟩

/-- C2, as stated, fails: with the two arguments `nolock extra` the argument vector is
not "exactly one argument equal to `nolock`", yet slot 4 is `normal`, unlike the
no-argument roster. -/
theorem mainFuncs_extra_argument_counterexample :
    (¬ ∃ prog, ["deadlock", "nolock", "extra"] = [prog, "nolock"]) ∧
    mainFuncs ["deadlock", "nolock", "extra"] 4 = .normal ∧
    mainFuncs ["deadlock"] 4 = .inverted ∧
    mainFuncs ["deadlock", "nolock", "extra"] ≠ mainFuncs ["deadlock"] := by
  refine ⟨by simp, by decide, by decide, ?_⟩
  intro h
  exact absurd (congrFun h 4) (by decide)

/-- C2, amended: the roster depends on the first argument only. When the first argument
is absent or differs from `nolock`, the roster is that of the no-argument invocation and
slot 4 is `inverted`; when the first argument is `nolock`, whatever follows it, slot 4
is `normal`. -/
theorem mainFuncs_first_argument (prog : String) (argv : List String) :
    (argv.get? 1 ≠ some "nolock" →
      mainFuncs argv = mainFuncs [prog] ∧ mainFuncs argv 4 = .inverted) ∧
    (argv.get? 1 = some "nolock" →
      mainFuncs argv = mainFuncs [prog, "nolock"] ∧ mainFuncs argv 4 = .normal) := by
  have h1 : mainFuncs [prog] = funcsInit := by simp [mainFuncs]
  have h2 : mainFuncs [prog, "nolock"] = Function.update funcsInit 4 .normal := by
    simp [mainFuncs, strcmpIsZero]
  rcases mainFuncs_cases argv with ⟨ha, h⟩ | ⟨ha, h⟩
  · refine ⟨fun hn => absurd ha hn, fun _ => ?_⟩
    rw [h, h2]; exact ⟨rfl, by decide⟩
  · refine ⟨fun _ => ?_, fun hn => absurd hn ha⟩
    rw [h, h1]; exact ⟨rfl, by decide⟩

theorem mainFuncs_first_argument_witness :
    (mainFuncs ["deadlock", "foo"] = mainFuncs ["deadlock"] ∧
      mainFuncs ["deadlock", "foo"] 4 = .inverted) ∧
    (mainFuncs ["deadlock", "nolock", "extra"] = mainFuncs ["deadlock", "nolock"] ∧
      mainFuncs ["deadlock", "nolock", "extra"] 4 = .normal) :=
  ⟨(mainFuncs_first_argument "deadlock" ["deadlock", "foo"]).1 (by decide),
   (mainFuncs_first_argument "deadlock" ["deadlock", "nolock", "extra"]).2 (by decide)⟩

theorem slots_split (i : Fin 8) :
    slots = slots.filter (fun k => k < i) ++ i :: slots.filter (fun k => i < k) := by
  revert i; decide

theorem slots_upto (i : Fin 8) :
    slots.filter (fun k => k < i) ++ [i] = slots.filter (fun k => k ≤ i) := by
  revert i; decide

theorem createEvents_snoc (funcs : Fin 8 → Routine) (l : List (Fin 8)) (i : Fin 8) :
    createEvents funcs (l ++ [i]) =
      createEvents funcs l ++ [.printf (startLine i), .pthread_create i (funcs i)] := by
  induction l with
  | nil => rfl
  | cons a l ih => simp [createEvents, ih]

theorem joinEvents_snoc (l : List (Fin 8)) (i : Fin 8) :
    joinEvents (l ++ [i]) = joinEvents l ++ [.printf (joinLine i), .pthread_join i] := by
  induction l with
  | nil => rfl
  | cons a l ih => simp [joinEvents, ih]

theorem alarms_append (a b : List Event) : alarms (a ++ b) = alarms a ++ alarms b := by
  induction a with
  | nil => rfl
  | cons e a ih => cases e <;> simp [alarms, ih]

theorem alarms_createEvents (funcs : Fin 8 → Routine) (l : List (Fin 8)) :
    alarms (createEvents funcs l) = [] := by
  induction l with
  | nil => rfl
  | cons a l ih => simp [createEvents, alarms, ih]

theorem alarms_joinEvents (l : List (Fin 8)) : alarms (joinEvents l) = [] := by
  induction l with
  | nil => rfl
  | cons a l ih => simp [joinEvents, alarms, ih]

theorem startLine_ne_final (i : Fin 8) : startLine i ≠ "Joined, all is good!\n" := by
  revert i; decide

theorem joinLine_ne_final (i : Fin 8) : joinLine i ≠ "Joined, all is good!\n" := by
  revert i; decide

theorem getLast?_append_two (pre l : List Event) (x y : Event) :
    (pre ++ (l ++ [x, y])).getLast? = some y := by
  have : pre ++ (l ++ [x, y]) = (pre ++ l ++ [x]) ++ [y] := by simp
  rw [this, List.getLast?_concat]

theorem main_status_zero_iff (argv : List String) (create join : Fin 8 → Int) :
    ((main argv create join).status = 0 ↔ (∀ i, create i = 0) ∧ ∀ j, join j = 0) ∧
    ((main argv create join).status = 0 ∨ (main argv create join).status = 1) := by
  have hmem : ∀ i : Fin 8, i ∈ slots := by decide
  rcases split_first_failure create slots with hc | ⟨l1, i, l2, hs, h1, hi⟩
  · rcases split_first_failure join slots with hj | ⟨m1, j, m2, hs, h1, hj⟩
    · rw [main_events_ok argv create join hc hj]
      exact ⟨⟨fun _ => ⟨fun i => hc i (hmem i), fun j => hj j (hmem j)⟩, fun _ => rfl⟩,
        Or.inl rfl⟩
    · rw [main_events_join_fail argv create join hc m1 j m2 hs h1 hj]
      exact ⟨⟨fun h => by simp at h, fun h => absurd (h.2 j) hj⟩, Or.inr rfl⟩
  · rw [main_events_create_fail argv create join l1 i l2 hs h1 hi]
    exact ⟨⟨fun h => by simp at h, fun h => absurd (h.1 i) hi⟩, Or.inr rfl⟩

theorem main_first_create_failure (argv : List String) (create join : Fin 8 → Int)
    (i : Fin 8) (hi : create i ≠ 0) (hlt : ∀ k, k < i → create k = 0) :
    main argv create join =
      ⟨.signalAlarmfire :: .alarm 8 ::
        createEvents (mainFuncs argv) (slots.filter (fun k => k < i) ++ [i]), 1⟩ := by
  refine main_events_create_fail argv create join _ i _ (slots_split i) ?_ hi
  intro k hk
  have := (List.mem_filter.mp hk).2
  exact hlt k (by simpa using this)

theorem main_first_join_failure (argv : List String) (create join : Fin 8 → Int)
    (hc : ∀ i, create i = 0)
    (j : Fin 8) (hj : join j ≠ 0) (hlt : ∀ k, k < j → join k = 0) :
    main argv create join =
      ⟨.signalAlarmfire :: .alarm 8 :: (createEvents (mainFuncs argv) slots ++
        .printf "Up and running!\n" :: joinEvents (slots.filter (fun k => k < j) ++ [j])),
        1⟩ := by
  refine main_events_join_fail argv create join (fun i _ => hc i) _ j _ (slots_split j) ?_ hj
  intro k hk
  have := (List.mem_filter.mp hk).2
  exact hlt k (by simpa using this)

theorem launched_nil : launched [] = [] := rfl
theorem joinedSlots_nil : joinedSlots [] = [] := rfl
theorem alarms_nil : alarms [] = [] := rfl
theorem launched_signal (es : List Event) : launched (.signalAlarmfire :: es) = launched es :=
  rfl
theorem launched_alarm (n : Nat) (es : List Event) : launched (.alarm n :: es) = launched es :=
  rfl
theorem launched_printf (t : String) (es : List Event) :
    launched (.printf t :: es) = launched es := rfl
theorem joinedSlots_signal (es : List Event) :
    joinedSlots (.signalAlarmfire :: es) = joinedSlots es := rfl
theorem joinedSlots_alarm (n : Nat) (es : List Event) :
    joinedSlots (.alarm n :: es) = joinedSlots es := rfl
theorem joinedSlots_printf (t : String) (es : List Event) :
    joinedSlots (.printf t :: es) = joinedSlots es := rfl
theorem alarms_signal (es : List Event) : alarms (.signalAlarmfire :: es) = alarms es := rfl
theorem alarms_alarm (n : Nat) (es : List Event) : alarms (.alarm n :: es) = n :: alarms es :=
  rfl
theorem alarms_printf (t : String) (es : List Event) : alarms (.printf t :: es) = alarms es :=
  rfl

/-- The program `main`, left to run to its end: its status and the calls it makes
when a launch or a join fails. -/
theorem main_program_status (argv : List String) (create join : Fin 8 → Int) :
    ((main argv create join).status = 0 ↔ (∀ i, create i = 0) ∧ ∀ j, join j = 0) ∧
    ((main argv create join).status = 0 ∨ (main argv create join).status = 1) ∧
    (∀ i, create i ≠ 0 → (∀ k, k < i → create k = 0) →
      (main argv create join).status = 1 ∧
      launched (main argv create join).events = slots.filter (fun k => k ≤ i) ∧
      joinedSlots (main argv create join).events = [] ∧
      (main argv create join).events.getLast? =
        some (.pthread_create i (mainFuncs argv i)) ∧
      alarms (main argv create join).events = [8]) ∧
    (∀ j, join j ≠ 0 → (∀ k, k < j → join k = 0) →
      (main argv create join).status = 1 ∧
      (∀ k, j < k → k ∉ joinedSlots (main argv create join).events) ∧
      "Joined, all is good!\n" ∉ printed (main argv create join).events ∧
      alarms (main argv create join).events = [8] ∧
      ((∀ i, create i = 0) →
        launched (main argv create join).events = slots ∧
        joinedSlots (main argv create join).events = slots.filter (fun k => k ≤ j) ∧
        (main argv create join).events.getLast? = some (.pthread_join j))) := by
  refine ⟨(main_status_zero_iff argv create join).1, (main_status_zero_iff argv create join).2,
    ?_, ?_⟩
  · intro i hi hlt
    rw [main_first_create_failure argv create join i hi hlt]
    refine ⟨rfl, ?_, ?_, ?_, ?_⟩
    · simp only [launched_signal, launched_alarm, launched_createEvents, slots_upto]
    · simp only [joinedSlots_signal, joinedSlots_alarm, joinedSlots_createEvents]
    · rw [createEvents_snoc]
      exact getLast?_append_two [.signalAlarmfire, .alarm 8] _ _ _
    · simp only [alarms_signal, alarms_alarm, alarms_createEvents]
  · intro j hj hlt
    have hmem : ∀ i : Fin 8, i ∈ slots := by decide
    have part : (∀ i, create i = 0) →
        (main argv create join).status = 1 ∧
        (∀ k, j < k → k ∉ joinedSlots (main argv create join).events) ∧
        "Joined, all is good!\n" ∉ printed (main argv create join).events ∧
        alarms (main argv create join).events = [8] ∧
        launched (main argv create join).events = slots ∧
        joinedSlots (main argv create join).events = slots.filter (fun k => k ≤ j) ∧
        (main argv create join).events.getLast? = some (.pthread_join j) := by
      intro hc
      rw [main_first_join_failure argv create join hc j hj hlt]
      have hjs : joinedSlots (Event.signalAlarmfire :: Event.alarm 8 ::
          (createEvents (mainFuncs argv) slots ++ Event.printf "Up and running!\n" ::
            joinEvents (slots.filter (fun k => k < j) ++ [j]))) =
          slots.filter (fun k => k ≤ j) := by
        simp only [joinedSlots_signal, joinedSlots_alarm, joinedSlots_append,
          joinedSlots_printf, joinedSlots_createEvents, joinedSlots_joinEvents, slots_upto,
          List.nil_append]
      refine ⟨rfl, ?_, ?_, ?_, ?_, hjs, ?_⟩
      · intro k hk hmemk
        rw [hjs] at hmemk
        have := (List.mem_filter.mp hmemk).2
        simp at this
        exact absurd hk (not_lt.mpr this)
      · simp only [printed_signal, printed_alarm, printed_append, printed_printf,
          printed_createEvents, printed_joinEvents]
        intro hm
        rcases List.mem_append.mp hm with hm | hm
        · obtain ⟨k, -, hk⟩ := List.mem_map.mp hm
          exact startLine_ne_final k hk
        · rcases List.mem_cons.mp hm with hm | hm
          · exact absurd hm (by decide)
          · obtain ⟨k, -, hk⟩ := List.mem_map.mp hm
            exact joinLine_ne_final k hk
      · simp only [alarms_signal, alarms_alarm, alarms_append, alarms_printf,
          alarms_createEvents, alarms_joinEvents, List.append_nil]
      · simp only [launched_signal, launched_alarm, launched_append, launched_printf,
          launched_createEvents, launched_joinEvents, List.append_nil]
      · rw [joinEvents_snoc]
        have : Event.signalAlarmfire :: Event.alarm 8 ::
            (createEvents (mainFuncs argv) slots ++ Event.printf "Up and running!\n" ::
              (joinEvents (slots.filter (fun k => k < j)) ++
                [Event.printf (joinLine j), Event.pthread_join j])) =
            ([Event.signalAlarmfire, Event.alarm 8] ++ createEvents (mainFuncs argv) slots ++
              [Event.printf "Up and running!\n"]) ++
              (joinEvents (slots.filter (fun k => k < j)) ++
                [Event.printf (joinLine j), Event.pthread_join j]) := by simp
        rw [this]
        exact getLast?_append_two _ _ _ _
    rcases split_first_failure create slots with hc | ⟨l1, i, l2, hs, h1, hi⟩
    · have hc2 : ∀ i, create i = 0 := fun i => hc i (hmem i)
      obtain ⟨a, b, c, d, e, f, g⟩ := part hc2
      exact ⟨a, b, c, d, fun _ => ⟨e, f, g⟩⟩
    · rw [main_events_create_fail argv create join l1 i l2 hs h1 hi]
      refine ⟨rfl, ?_, ?_, ?_, fun hc => absurd (hc i) hi⟩
      · intro k _
        simp only [joinedSlots_signal, joinedSlots_alarm, joinedSlots_createEvents]
        exact List.not_mem_nil _
      · simp only [printed_signal, printed_alarm, printed_createEvents]
        intro hm
        obtain ⟨k, -, hk⟩ := List.mem_map.mp hm
        exact startLine_ne_final k hk
      · simp only [alarms_signal, alarms_alarm, alarms_createEvents]

theorem main_alarmShape (argv : List String) (create join : Fin 8 → Int) :
    AlarmShape (main argv create join) := by
  rcases split_first_failure create slots with hc | ⟨l1, i, l2, hs, h1, hi⟩
  · rcases split_first_failure join slots with hj | ⟨m1, j, m2, hs, h1, hj⟩
    · rw [main_events_ok argv create join hc hj]
      refine ⟨_, rfl, Or.inr ?_, fun _ => ?_⟩ <;>
        simp only [alarms_append, alarms_printf, alarms_alarm, alarms_createEvents,
          alarms_joinEvents, List.nil_append, alarms]
    · rw [main_events_join_fail argv create join hc m1 j m2 hs h1 hj]
      refine ⟨_, rfl, Or.inl ?_, fun h => by simp at h⟩
      simp only [alarms_append, alarms_printf, alarms_alarm, alarms_createEvents,
          alarms_joinEvents, List.nil_append]
  · rw [main_events_create_fail argv create join l1 i l2 hs h1 hi]
    exact ⟨_, rfl, Or.inl (alarms_createEvents _ _), fun h => by simp at h⟩

theorem procInv_start (r : Run) : ProcInv r (Proc.start r) :=
  ⟨rfl, rfl, ⟨Or.inl rfl, rfl⟩, fun s h => by simp [Proc.start] at h,
    fun h => by simp [Proc.start] at h⟩

theorem alarms_snoc (l : List Event) (e : Event) :
    alarms (l ++ [e]) = alarms l ++ alarms [e] := alarms_append l [e]

theorem procInv_step (r : Run) (hr : AlarmShape r) (a : Action) (p p' : Proc)
    (hp : ProcInv r p) (hs : procStep a p = some p') : ProcInv r p' := by
  obtain ⟨rest, hE, hrest, hzero⟩ := hr
  obtain ⟨hpast, hres, hwd, hex, hab⟩ := hp
  unfold procStep at hs
  cases hend : p.ended with
  | some e => simp [hend] at hs
  | none =>
    simp only [hend] at hs
    cases a with
    | tick =>
      simp only at hs
      cases hw : p.watchdog with
      | armed n =>
        simp only [hw] at hs hwd
        split_ifs at hs with hn
        · cases hs
          refine ⟨hpast, hres, ?_, ?_, ?_⟩
          · simp only [deliver]
            exact ⟨hwd.1, by simp [hwd.2]⟩
          · intro s h
            simp only [deliver] at h
            cases hh : p.handler <;> simp [hh] at h
          · intro _; rfl
        · cases hs
          refine ⟨hpast, hres, ?_, ?_, ?_⟩
          · simpa using hwd
          · intro s h; simp [hend] at h
          · intro h; simp [hend] at h
      | idle =>
        simp only [hw] at hs
        cases hs
        exact ⟨hpast, hres, hwd, hex, hab⟩
      | disarmed =>
        simp only [hw] at hs
        cases hs
        exact ⟨hpast, hres, hwd, hex, hab⟩
      | fired =>
        simp only [hw] at hs
        cases hs
        exact ⟨hpast, hres, hwd, hex, hab⟩
    | call =>
      simp only at hs
      cases htodo : p.todo with
      | nil =>
        simp only [htodo] at hs
        cases hs
        have hpe : p.past = r.events := by rw [hpast, htodo, List.append_nil]
        refine ⟨by simpa [htodo] using hpast, hres, ?_, ?_, ?_⟩
        · cases hw : p.watchdog with
          | idle =>
            simp only [hw] at hwd
            rw [hpe, hE] at hwd
            simp at hwd
          | armed n => simpa [hw] using hwd
          | disarmed => simpa [hw] using hwd
          | fired =>
            simp only [hw] at hwd
            simp [hend] at hwd
        · intro s h
          simp only [Option.some.injEq, Ending.exited.injEq] at h
          exact ⟨by rw [← h, hres], rfl⟩
        · intro h; simp at h
      | cons e es =>
        simp only [htodo] at hs
        cases hs
        have hpast' : r.events = (p.past ++ [e]) ++ es := by
          rw [hpast, htodo]; simp
        have hal : alarms (p.past ++ [e]) ++ alarms es = 8 :: alarms rest := by
          rw [← alarms_append, ← hpast', hE]; rfl
        refine ⟨?_, ?_, ?_, ?_, ?_⟩
        · cases e <;> simpa [perform] using hpast'
        · cases e <;> simpa [perform] using hres
        · cases hw : p.watchdog with
          | idle =>
            simp only [hw] at hwd
            rcases hwd.1 with h | ⟨h, hh⟩
            · rw [h] at hpast'
              have : e = .signalAlarmfire := by
                rw [hE] at hpast'; simp at hpast'; exact hpast'.1.symm
              subst this
              simp [perform, hw, hend, h]
            · rw [h] at hpast'
              have : e = .alarm 8 := by
                rw [hE] at hpast'; simp at hpast'; exact hpast'.1.symm
              subst this
              simp [perform, hw, setAlarm, alarms, hh, h]
          | armed n =>
            obtain ⟨hwd, hh⟩ : alarms p.past = [8] ∧ p.handler = true := by simpa [hw] using hwd
            rw [alarms_snoc, hwd] at hal
            cases e with
            | alarm k =>
              have hk : k = 0 := by
                rcases hrest with h | h <;> simp [h, alarms] at hal
                exact hal.1
              subst hk
              simp [perform, hw, setAlarm, alarms_snoc, hwd, alarms]
            | signalAlarmfire => simp [perform, hw, alarms_snoc, hwd, alarms]
            | printf t => simp [perform, hw, alarms_snoc, hwd, alarms, hh]
            | pthread_create i f => simp [perform, hw, alarms_snoc, hwd, alarms, hh]
            | pthread_join i => simp [perform, hw, alarms_snoc, hwd, alarms, hh]
          | disarmed =>
            simp only [hw] at hwd
            rw [alarms_snoc, hwd] at hal
            cases e with
            | alarm k => rcases hrest with h | h <;> simp [h, alarms] at hal
            | signalAlarmfire => simp [perform, hw, alarms_snoc, hwd, alarms]
            | printf t => simp [perform, hw, alarms_snoc, hwd, alarms]
            | pthread_create i f => simp [perform, hw, alarms_snoc, hwd, alarms]
            | pthread_join i => simp [perform, hw, alarms_snoc, hwd, alarms]
          | fired =>
            simp only [hw] at hwd
            simp [hend] at hwd
        · intro s h
          cases e <;> simp [perform, hend] at h
        · intro h
          cases e <;> simp [perform, hend] at h

theorem procInv_run (r : Run) (hr : AlarmShape r) (sched : List Action) :
    ∀ p p', ProcInv r p → runProc sched p = some p' → ProcInv r p' := by
  induction sched with
  | nil =>
    intro p p' hp h
    simp only [runProc, Option.some.injEq] at h
    exact h ▸ hp
  | cons a as ih =>
    intro p p' hp h
    simp only [runProc] at h
    cases hs : procStep a p with
    | none => simp [hs] at h
    | some q =>
      rw [hs] at h
      exact ih q p' (procInv_step r hr a p q hp hs) h

theorem runProc_append (s1 s2 : List Action) (p : Proc) :
    runProc (s1 ++ s2) p = (runProc s1 p).bind (runProc s2) := by
  induction s1 generalizing p with
  | nil => rfl
  | cons a as ih =>
    simp only [List.cons_append, runProc]
    cases procStep a p with
    | none => rfl
    | some q => exact ih q

theorem main_disarm_only_on_success (argv : List String) (create join : Fin 8 → Int)
    (h : 0 ∈ alarms (main argv create join).events) :
    (∀ i, create i = 0) ∧ (∀ j, join j = 0) ∧
    ∃ pre, (main argv create join).events = pre ++ [.alarm 0] ∧
      launched pre = slots ∧ joinedSlots pre = slots ∧ alarms pre = [8] := by
  have hmem : ∀ i : Fin 8, i ∈ slots := by decide
  rcases split_first_failure create slots with hc | ⟨l1, i, l2, hs, h1, hi⟩
  · rcases split_first_failure join slots with hj | ⟨m1, j, m2, hs, h1, hj⟩
    · refine ⟨fun i => hc i (hmem i), fun j => hj j (hmem j), ?_⟩
      rw [main_events_ok argv create join hc hj]
      refine ⟨.signalAlarmfire :: .alarm 8 :: (createEvents (mainFuncs argv) slots ++
        .printf "Up and running!\n" :: (joinEvents slots ++
          [.printf "Joined, all is good!\n"])), by simp, ?_, ?_, ?_⟩
      · simp only [launched_signal, launched_alarm, launched_append, launched_printf,
          launched_createEvents, launched_joinEvents, launched_nil, List.append_nil]
      · simp only [joinedSlots_signal, joinedSlots_alarm, joinedSlots_append,
          joinedSlots_printf, joinedSlots_createEvents, joinedSlots_joinEvents, joinedSlots_nil,
          List.append_nil, List.nil_append]
      · simp only [alarms_signal, alarms_alarm, alarms_append, alarms_printf,
          alarms_createEvents, alarms_joinEvents, alarms_nil, List.append_nil, List.nil_append]
    · rw [main_events_join_fail argv create join hc m1 j m2 hs h1 hj] at h
      simp only [alarms_signal, alarms_alarm, alarms_append, alarms_printf,
          alarms_createEvents, alarms_joinEvents, List.append_nil] at h
      simp at h
  · rw [main_events_create_fail argv create join l1 i l2 hs h1 hi] at h
    simp only [alarms_signal, alarms_alarm, alarms_createEvents] at h
    simp at h

theorem alarms_last_nonempty (t : List Event) (pre past : List Event)
    (h : pre ++ [.alarm 0] = past ++ t) (ht : alarms t = []) : t = [] := by
  rcases List.eq_nil_or_concat t with h0 | ⟨t', x, hx⟩
  · exact h0
  · subst hx
    rw [List.concat_eq_append] at ht ⊢
    rw [List.concat_eq_append, ← List.append_assoc] at h
    have hx : x = .alarm 0 := by
      have := congrArg List.getLast? h
      simp only [List.getLast?_concat, Option.some.injEq] at this
      exact this.symm
    subst hx
    rw [alarms_snoc] at ht
    simp [alarms] at ht

theorem launched_eq_of_idle (E past todo : List Event) (h : E = past ++ todo)
    (hp : past = [] ∨ past = [.signalAlarmfire]) : launched todo = launched E := by
  rcases hp with hp | hp <;> subst hp <;> rw [h] <;> rfl

theorem proc_reachable_inv (argv : List String) (create join : Fin 8 → Int)
    (sched : List Action) (p : Proc)
    (hp : runProc sched (Proc.start (main argv create join)) = some p) :
    ProcInv (main argv create join) p :=
  procInv_run _ (main_alarmShape argv create join) sched _ p (procInv_start _) hp

theorem mem_alarms (n : Nat) (l : List Event) : Event.alarm n ∈ l ↔ n ∈ alarms l := by
  induction l with
  | nil => simp [alarms]
  | cons e l ih => cases e <;> simp [alarms, ih]

theorem mem_printed (t : String) (l : List Event) : Event.printf t ∈ l ↔ t ∈ printed l := by
  induction l with
  | nil => simp [printed]
  | cons e l ih => cases e <;> simp [printed, ih]

/-- C9, as stated, fails: with every launch and join succeeding, after the eighth
`pthread_join` has returned and even after the success line is printed, while the
watchdog is still armed and `main` is about to call `alarm(0)`, the deadline can
elapse; the handler then aborts the process and the watchdog is never disarmed. -/
theorem watchdog_fires_after_joins_counterexample :
    ∃ p1 p2,
      runProc (List.replicate 36 .call)
        (Proc.start (main ["deadlock", "nolock"] (fun _ => 0) (fun _ => 0))) = some p1 ∧
      p1.todo = [.alarm 0] ∧ joinedSlots p1.past = slots ∧
      p1.watchdog = .armed 8 ∧ p1.ended = none ∧
      runProc (List.replicate 8 .tick) p1 = some p2 ∧
      p2.watchdog = .fired ∧ p2.ended = some .aborted ∧
      ∀ sched p3, runProc sched p2 = some p3 → p3.watchdog ≠ .disarmed := by
  refine ⟨_, _, rfl, by decide, by decide, by decide, by decide, rfl, by decide, by decide, ?_⟩
  intro sched p3 h
  cases sched with
  | nil =>
    simp only [runProc, Option.some.injEq] at h
    rw [← h]; decide
  | cons a as =>
    simp only [runProc] at h
    revert h
    rw [show procStep a _ = none from by cases a <;> rfl]
    simp

/-- C9, amended: the watchdog is armed with duration 8 before the first launch, and its
process-level state only moves idle -> ARMED (by `alarm(8)`), ARMED -> DISARMED or
ARMED -> FIRED. In every execution, the watchdog is disarmed exactly from the moment
`main` has executed its `alarm(0)` call: that call, when it is executed, finds the
watchdog armed and disarms it, and once disarmed the watchdog never fires; a process
that exited with status 0 has disarmed it. The disarm happens only after all eight
launches and all eight joins have succeeded and the success line is printed (it is
the last call of `main`), never on a failure path; a fired watchdog has aborted the
process. Joins that all succeed while the watchdog is armed, or `main` standing
before `alarm(0)`, do not suffice: the deadline may elapse until the call is executed. -/
theorem watchdog_machine (argv : List String) (create join : Fin 8 → Int)
    (sched : List Action) (p : Proc)
    (hp : runProc sched (Proc.start (main argv create join)) = some p) :
    (∃ rest, (main argv create join).events = .signalAlarmfire :: .alarm 8 :: rest) ∧
    (p.watchdog = .idle → launched p.past = []) ∧
    (∀ a p', procStep a p = some p' →
      p.watchdog.samePhase p'.watchdog = true ∨
      (p.watchdog = .idle ∧ p'.watchdog = .armed 8) ∨
      (∃ n, p.watchdog = .armed n ∧ (p'.watchdog = .disarmed ∨ p'.watchdog = .fired))) ∧
    (Event.alarm 0 ∈ p.past ↔ p.watchdog = .disarmed) ∧
    (∀ es, p.ended = none → p.todo = .alarm 0 :: es →
      ∃ n p', p.watchdog = .armed n ∧ procStep .call p = some p' ∧
        Event.alarm 0 ∈ p'.past ∧ p'.watchdog = .disarmed) ∧
    (p.watchdog = .disarmed →
      ∀ sched' p', runProc sched' p = some p' → p'.watchdog = .disarmed) ∧
    (p.ended = some (.exited 0) → p.watchdog = .disarmed) ∧
    (p.watchdog = .disarmed →
      (∀ i, create i = 0) ∧ (∀ j, join j = 0) ∧ p.todo = [] ∧
      launched p.past = slots ∧ joinedSlots p.past = slots ∧
      "Joined, all is good!\n" ∈ printed p.past) ∧
    (p.watchdog = .fired ↔ p.ended = some .aborted) := by
  have hshape := main_alarmShape argv create join
  have hinv := proc_reachable_inv argv create join sched p hp
  obtain ⟨rest, hE, hrest, hzero⟩ := hshape
  obtain ⟨hpast, hres, hwd, hex, hab⟩ := hinv
  -- disarmed states: the run succeeded and nothing is left to do
  have hdis : p.watchdog = .disarmed →
      (∀ i, create i = 0) ∧ (∀ j, join j = 0) ∧ p.todo = [] ∧
      launched p.past = slots ∧ joinedSlots p.past = slots ∧
      "Joined, all is good!\n" ∈ printed p.past := by
    intro hw
    simp only [hw] at hwd
    have h0 : 0 ∈ alarms (main argv create join).events := by
      rw [hpast, alarms_append, hwd]; simp
    obtain ⟨hc, hj, pre, hpre, hl, hjs, hal⟩ := main_disarm_only_on_success argv create join h0
    have htodo : alarms p.todo = [] := by
      have := congrArg alarms hpast
      rw [hpre, alarms_append, alarms_append, hal, hwd] at this
      simpa [alarms] using this
    have ht : p.todo = [] := alarms_last_nonempty p.todo pre p.past (hpre ▸ hpast) htodo
    have hpe : p.past = (main argv create join).events := by
      rw [hpast, ht, List.append_nil]
    have hmem : ∀ i : Fin 8, i ∈ slots := by decide
    refine ⟨hc, hj, ht, ?_, ?_, ?_⟩
    · rw [hpe, hpre, launched_append, hl]; rfl
    · rw [hpe, hpre, joinedSlots_append, hjs]; rfl
    · rw [hpe, (main_program_lines argv create join).2.mpr ⟨hc, hj⟩]
      decide
  refine ⟨⟨rest, hE⟩, ?_, ?_, ?_, ?_, ?_, ?_, hdis, ?_⟩
  · intro hw
    simp only [hw] at hwd
    rcases hwd.1 with h | h
    · rw [h]; rfl
    · rw [h.1]; rfl
  · intro a p' hs
    unfold procStep at hs
    cases hend : p.ended with
    | some e => simp [hend] at hs
    | none =>
      simp only [hend] at hs
      cases a with
      | tick =>
        simp only at hs
        cases hw : p.watchdog with
        | armed n =>
          simp only [hw] at hs
          split_ifs at hs
          · cases hs; exact Or.inr (Or.inr ⟨n, rfl, Or.inr rfl⟩)
          · cases hs; exact Or.inl rfl
        | idle => simp only [hw] at hs; cases hs; left; rw [hw]; rfl
        | disarmed => simp only [hw] at hs; cases hs; left; rw [hw]; rfl
        | fired => simp only [hw] at hs; cases hs; left; rw [hw]; rfl
      | call =>
        simp only at hs
        cases htodo : p.todo with
        | nil =>
          simp only [htodo] at hs
          cases hs
          left
          cases p.watchdog <;> rfl
        | cons e es =>
          simp only [htodo] at hs
          cases hs
          cases e with
          | alarm k =>
            simp only [perform]
            cases hw : p.watchdog with
            | idle =>
              simp only [hw] at hwd
              have : k = 8 := by
                rcases hwd.1 with h | ⟨h, -⟩
                · rw [h, hE, htodo] at hpast; simp at hpast
                · rw [h, hE, htodo] at hpast; simp at hpast
                  exact hpast.1.symm
              subst this
              right; left; exact ⟨rfl, rfl⟩
            | armed n =>
              by_cases hk : k = 0
              · subst hk
                right; right; exact ⟨n, rfl, Or.inl rfl⟩
              · left; simp [setAlarm, hk, Watchdog.samePhase]
            | disarmed =>
              have ht := (hdis hw).2.2.1
              rw [htodo] at ht
              exact absurd ht (by simp)
            | fired =>
              simp only [hw] at hwd
              simp [hend] at hwd
          | signalAlarmfire => left; simp only [perform]; cases p.watchdog <;> rfl
          | printf t => left; simp only [perform]; cases p.watchdog <;> rfl
          | pthread_create i f => left; simp only [perform]; cases p.watchdog <;> rfl
          | pthread_join i => left; simp only [perform]; cases p.watchdog <;> rfl
  · rw [mem_alarms]
    cases hw : p.watchdog with
    | idle =>
      simp only [hw] at hwd
      rcases hwd.1 with h | ⟨h, -⟩ <;> rw [h] <;> simp [alarms]
    | armed n => simp only [hw] at hwd; rw [hwd.1]; simp
    | disarmed => simp only [hw] at hwd; rw [hwd]; simp
    | fired => simp only [hw] at hwd; rw [hwd.1]; simp
  · intro es hend htodo
    cases hw : p.watchdog with
    | idle =>
      simp only [hw] at hwd
      rcases hwd.1 with h | ⟨h, -⟩
      · rw [h, hE, htodo] at hpast; simp at hpast
      · rw [h, hE, htodo] at hpast; simp at hpast
    | armed n =>
      refine ⟨n, perform (.alarm 0) { p with past := p.past ++ [.alarm 0], todo := es }, rfl,
        by simp [procStep, hend, htodo], ?_, ?_⟩
      · simp [perform]
      · simp [perform, hw, setAlarm]
    | disarmed =>
      have ht := (hdis hw).2.2.1
      rw [htodo] at ht
      exact absurd ht (by simp)
    | fired =>
      simp only [hw] at hwd
      simp [hend] at hwd
  · intro hw sched' p' hrun
    have htodo := (hdis hw).2.2.1
    clear hp hpast hres hwd hex hab hdis
    induction sched' generalizing p with
    | nil =>
      simp only [runProc, Option.some.injEq] at hrun
      rw [← hrun]; exact hw
    | cons a as ih =>
      simp only [runProc] at hrun
      cases hs : procStep a p with
      | none => simp [hs] at hrun
      | some q =>
        rw [hs] at hrun
        have hq : q.watchdog = .disarmed ∧ q.todo = [] := by
          unfold procStep at hs
          cases hend : p.ended with
          | some e => simp [hend] at hs
          | none =>
            simp only [hend] at hs
            cases a with
            | tick => simp only [hw] at hs; cases hs; exact ⟨hw, htodo⟩
            | call => simp only [htodo] at hs; cases hs; exact ⟨hw, rfl⟩
        exact ih q hq.1 hrun hq.2
  · intro hend
    obtain ⟨hs, htodo⟩ := hex 0 hend
    have hpe : p.past = (main argv create join).events := by
      rw [hpast, htodo, List.append_nil]
    have har : alarms p.past = [8, 0] := by
      rw [hpe, hE, alarms_signal, alarms_alarm, hzero hs.symm]
    cases hw : p.watchdog with
    | idle => simp only [hw] at hwd; simp [hend] at hwd
    | armed n => simp only [hw] at hwd; rw [har] at hwd; simp at hwd
    | disarmed => rfl
    | fired => simp only [hw] at hwd; simp [hend] at hwd
  · constructor
    · intro hw
      simp only [hw] at hwd
      exact hwd.2
    · intro he
      exact hab (Or.inl he)

theorem watchdog_machine_witness :
    ∃ p, runProc (List.replicate 37 .call)
        (Proc.start (main ["deadlock", "nolock"] (fun _ => 0) (fun _ => 0))) = some p ∧
      p.watchdog = .disarmed ∧
      ∀ sched p', runProc sched p = some p' → p'.watchdog = .disarmed :=
  ⟨_, rfl, by decide,
    (watchdog_machine ["deadlock", "nolock"] (fun _ => 0) (fun _ => 0)
      (List.replicate 37 .call) _ rfl).2.2.2.2.2.1 (by decide)⟩

theorem runProc_calls (todo : List Event) :
    ∀ p : Proc, p.todo = todo → p.ended = none →
      ∃ q, runProc (List.replicate (todo.length + 1) .call) p = some q ∧
        q.ended = some (.exited p.result) ∧ q.past = p.past ++ todo := by
  induction todo with
  | nil =>
    intro p ht he
    refine ⟨{ p with ended := some (.exited p.result) }, ?_, rfl, by simp⟩
    simp [List.replicate, runProc, procStep, he, ht]
  | cons e es ih =>
    intro p ht he
    have hs : procStep .call p = some (perform e { p with past := p.past ++ [e], todo := es }) := by
      simp [procStep, he, ht]
    obtain ⟨q, hq, hend, hpast⟩ :=
      ih (perform e { p with past := p.past ++ [e], todo := es })
        (by cases e <;> rfl) (by cases e <;> simp [perform, he])
    refine ⟨q, ?_, ?_, ?_⟩
    · rw [List.length_cons, List.replicate_succ]
      simp only [runProc, hs, Option.bind]
      exact hq
    · rw [hend]; cases e <;> rfl
    · rw [hpast]; cases e <;> simp [perform]

theorem proc_endings (argv : List String) (create join : Fin 8 → Int)
    (sched : List Action) (p : Proc)
    (hp : runProc sched (Proc.start (main argv create join)) = some p) :
    (main argv create join).events = p.past ++ p.todo ∧
    (p.ended = none ∨ p.ended = some (.exited (main argv create join).status) ∨
      p.ended = some .aborted) ∧
    (∀ s, p.ended = some (.exited s) →
      s = (main argv create join).status ∧ p.past = (main argv create join).events) := by
  obtain ⟨hpast, hres, hwd, hex, hab⟩ := proc_reachable_inv argv create join sched p hp
  refine ⟨hpast, ?_, ?_⟩
  · cases he : p.ended with
    | none => exact Or.inl rfl
    | some e =>
      cases e with
      | exited s => rw [(hex s he).1]; exact Or.inr (Or.inl rfl)
      | aborted => exact Or.inr (Or.inr rfl)
      | killed =>
        have hf := hab (Or.inr he)
        simp only [hf] at hwd
        rw [he] at hwd
        exact absurd hwd.2 (by simp)
  · intro s he
    obtain ⟨hs, ht⟩ := hex s he
    exact ⟨hs, by rw [hpast, ht, List.append_nil]⟩

/-- C7, as stated, fails: with all eight launches and all eight joins succeeding, the
watchdog can abort the process after the eighth join and before line 83, so that
only seventeen of the eighteen lines are ever printed. -/
theorem process_lines_counterexample :
    ∃ p, runProc (callsThenDeadline 35)
        (Proc.start (main ["deadlock", "nolock"] (fun _ => 0) (fun _ => 0))) = some p ∧
      launched p.past = slots ∧ joinedSlots p.past = slots ∧
      p.ended = some .aborted ∧ (printed p.past).length = 17 ∧
      printed p.past ≠ allLines ∧
      ∀ sched q, runProc sched p = some q → printed q.past ≠ allLines := by
  refine ⟨_, rfl, by decide, by decide, by decide, by decide, by decide, ?_⟩
  intro sched q h
  cases sched with
  | nil =>
    simp only [runProc, Option.some.injEq] at h
    rw [← h]; decide
  | cons a as =>
    simp only [runProc] at h
    revert h
    rw [show procStep a _ = none from by cases a <;> rfl]
    simp

/-- C7, amended: for every invocation, every outcome of the launch and join calls and
at every moment of every execution, also one ended by the watchdog, the status lines
printed so far are a prefix of the eighteen lines "Starting 0..." to "Starting 7...",
"Up and running!", "Joining 0..." to "Joining 7...", "Joined, all is good!" (each
with its newline). The full sequence is printed only if all eight launches and all
eight joins succeed; when they do, it has been printed exactly when `main` has got
past line 83 (at most `alarm(0)` is left to do), which a watchdog abort can prevent;
for a process that ended by `exit(1)` or `return 0`, the full sequence is printed
exactly when all sixteen calls succeed. -/
theorem process_printed_lines (argv : List String) (create join : Fin 8 → Int)
    (sched : List Action) (p : Proc)
    (hp : runProc sched (Proc.start (main argv create join)) = some p) :
    printed p.past <+: allLines ∧
    (printed p.past = allLines → (∀ i, create i = 0) ∧ ∀ j, join j = 0) ∧
    ((∀ i, create i = 0) → (∀ j, join j = 0) →
      (printed p.past = allLines ↔ p.todo.length ≤ 1)) ∧
    (∀ s, p.ended = some (.exited s) →
      (printed p.past = allLines ↔ (∀ i, create i = 0) ∧ ∀ j, join j = 0)) := by
  obtain ⟨hpast, -, hex⟩ := proc_endings argv create join sched p hp
  obtain ⟨hpre, hiff⟩ := main_program_lines argv create join
  have hpr : printed (main argv create join).events = printed p.past ++ printed p.todo := by
    rw [hpast, printed_append]
  have hall : allLines.length = 18 := by decide
  have hfull : printed p.past = allLines → printed (main argv create join).events = allLines := by
    intro h
    apply hpre.eq_of_length
    have h1 := hpre.length_le
    have h2 := congrArg List.length hpr
    rw [h, List.length_append] at h2
    omega
  refine ⟨List.IsPrefix.trans ⟨printed p.todo, hpr.symm⟩ hpre, fun h => hiff.mp (hfull h), ?_, ?_⟩
  · intro hc hj
    have hmem : ∀ i : Fin 8, i ∈ slots := by decide
    have hev := main_events_ok argv create join (fun i _ => hc i) (fun j _ => hj j)
    have hsuf : [Event.printf "Joined, all is good!\n", Event.alarm 0] <:+
        (main argv create join).events := by
      rw [hev]
      refine ⟨.signalAlarmfire :: .alarm 8 :: (createEvents (mainFuncs argv) slots ++
        .printf "Up and running!\n" :: joinEvents slots), by simp⟩
    have htsuf : p.todo <:+ (main argv create join).events := ⟨p.past, hpast.symm⟩
    have hfin := hiff.mpr ⟨hc, hj⟩
    constructor
    · intro h
      by_contra hlen
      have h2 : [Event.printf "Joined, all is good!\n", Event.alarm 0] <:+ p.todo :=
        List.suffix_of_suffix_length_le hsuf htsuf (by simp; omega)
      have hm : Event.printf "Joined, all is good!\n" ∈ p.todo :=
        h2.subset (by simp)
      have hm' := (mem_printed _ _).mp hm
      have h3 := congrArg List.length hpr
      rw [hfin, h, List.length_append] at h3
      have : (printed p.todo).length = 0 := by omega
      rw [List.length_eq_zero] at this
      rw [this] at hm'
      exact absurd hm' (List.not_mem_nil _)
    · intro hlen
      have hnil : printed p.todo = [] := by
        match hto : p.todo, hlen with
        | [], _ => rfl
        | [x], _ =>
          have h2 : [Event.alarm 0] <:+ (main argv create join).events := by
            rw [hev]
            refine ⟨.signalAlarmfire :: .alarm 8 :: (createEvents (mainFuncs argv) slots ++
              .printf "Up and running!\n" :: (joinEvents slots ++
                [.printf "Joined, all is good!\n"])), by simp⟩
          have h3 : [Event.alarm 0] <:+ [x] :=
            List.suffix_of_suffix_length_le h2 (hto ▸ htsuf) (by simp)
          have hx : x = .alarm 0 := by
            have := h3.subset (List.mem_singleton.mpr rfl)
            exact (List.mem_singleton.mp this).symm
          rw [hx]; rfl
      rw [hnil, List.append_nil] at hpr
      rw [← hpr, hfin]
  · intro s he
    rw [(hex s he).2]
    exact hiff

theorem process_printed_lines_witness :
    ∃ p, runProc (callsThenDeadline 36)
        (Proc.start (main ["deadlock", "nolock"] (fun _ => 0) (fun _ => 0))) = some p ∧
      p.ended = some .aborted ∧ printed p.past <+: allLines ∧ printed p.past = allLines :=
  have h := process_printed_lines ["deadlock", "nolock"] (fun _ => 0) (fun _ => 0)
    (callsThenDeadline 36) _ rfl
  ⟨_, rfl, by decide, h.1, (h.2.2.1 (fun _ => rfl) (fun _ => rfl)).mpr (by decide)⟩

/-- C8, as stated, fails: with all eight launches and all eight joins succeeding, the
watchdog can abort the process after the eighth join (SIGABRT from `alarmfire`), so
that it never terminates with status 0. -/
theorem process_status_counterexample :
    ∃ p, runProc (callsThenDeadline 35)
        (Proc.start (main ["deadlock", "nolock"] (fun _ => 0) (fun _ => 0))) = some p ∧
      launched p.past = slots ∧ joinedSlots p.past = slots ∧
      p.ended = some .aborted ∧ p.ended ≠ some (.exited 0) ∧
      ∀ sched q, runProc sched p = some q → q.ended ≠ some (.exited 0) := by
  refine ⟨_, rfl, by decide, by decide, by decide, by decide, ?_⟩
  intro sched q h
  cases sched with
  | nil =>
    simp only [runProc, Option.some.injEq] at h
    rw [← h]; decide
  | cons a as =>
    simp only [runProc] at h
    revert h
    rw [show procStep a _ = none from by cases a <;> rfl]
    simp

/-- C8, amended: given the results of the launch and join calls, the process ends
either by `exit(1)` or `return 0` of `main`, or by the abort of the watchdog handler,
which can come between any two calls. When it ends with an exit status, that status
is 0 if and only if all 8 launches and all 8 joins succeed, and 1 otherwise, and it
does end so when the deadline does not elapse. If launch `i` is the first failing
launch, no launch after `i` and no join is ever attempted, and an exit has status 1
right after the launches 0..i. If join `j` is the first failing join, no join after
`j` is ever attempted, the success line is never printed and `alarm(0)` never called,
and an exit has status 1, right after the joins 0..j when the launches succeeded. -/
theorem process_exit_status (argv : List String) (create join : Fin 8 → Int)
    (sched : List Action) (p : Proc)
    (hp : runProc sched (Proc.start (main argv create join)) = some p) :
    (p.ended = none ∨ p.ended = some (.exited (main argv create join).status) ∨
      p.ended = some .aborted) ∧
    (∀ s, p.ended = some (.exited s) →
      (s = 0 ∨ s = 1) ∧ (s = 0 ↔ (∀ i, create i = 0) ∧ ∀ j, join j = 0)) ∧
    (∃ q, runProc (List.replicate ((main argv create join).events.length + 1) .call)
        (Proc.start (main argv create join)) = some q ∧
      q.ended = some (.exited (main argv create join).status) ∧
      ((main argv create join).status = 0 ↔ (∀ i, create i = 0) ∧ ∀ j, join j = 0)) ∧
    (∀ i, create i ≠ 0 → (∀ k, k < i → create k = 0) →
      launched p.past <+: slots.filter (fun k => k ≤ i) ∧
      joinedSlots p.past = [] ∧
      (∀ s, p.ended = some (.exited s) →
        s = 1 ∧ launched p.past = slots.filter (fun k => k ≤ i) ∧
        p.past.getLast? = some (.pthread_create i (mainFuncs argv i)))) ∧
    (∀ j, join j ≠ 0 → (∀ k, k < j → join k = 0) →
      (∀ k, j < k → k ∉ joinedSlots p.past) ∧
      "Joined, all is good!\n" ∉ printed p.past ∧
      Event.alarm 0 ∉ p.past ∧
      (∀ s, p.ended = some (.exited s) →
        s = 1 ∧
        ((∀ i, create i = 0) →
          launched p.past = slots ∧
          joinedSlots p.past = slots.filter (fun k => k ≤ j) ∧
          p.past.getLast? = some (.pthread_join j)))) := by
  obtain ⟨hpast, hend, hex⟩ := proc_endings argv create join sched p hp
  obtain ⟨hzero, h01, hlaunch, hjoin⟩ := main_program_status argv create join
  refine ⟨hend, ?_, ?_, ?_, ?_⟩
  · intro s he
    rw [(hex s he).1]
    exact ⟨h01, hzero⟩
  · obtain ⟨q, hq, hqe, -⟩ := runProc_calls (main argv create join).events
      (Proc.start (main argv create join)) rfl rfl
    exact ⟨q, hq, hqe, hzero⟩
  · intro i hi hlt
    obtain ⟨hst, hl, hj, hlast, -⟩ := hlaunch i hi hlt
    have hj' : joinedSlots p.past ++ joinedSlots p.todo = [] := by
      rw [← joinedSlots_append, ← hpast]; exact hj
    refine ⟨⟨launched p.todo, by rw [← launched_append, ← hpast]; exact hl⟩,
      (List.append_eq_nil.mp hj').1, ?_⟩
    intro s he
    obtain ⟨hs, hpe⟩ := hex s he
    rw [hpe, hs]
    exact ⟨hst, hl, hlast⟩
  · intro j hj hlt
    obtain ⟨hst, hno, hfin, hal, hrest⟩ := hjoin j hj hlt
    refine ⟨?_, ?_, ?_, ?_⟩
    · intro k hk hmem
      apply hno k hk
      rw [hpast, joinedSlots_append]
      exact List.mem_append_left _ hmem
    · intro hmem
      apply hfin
      rw [hpast, printed_append]
      exact List.mem_append_left _ hmem
    · intro hmem
      have h0 : (0 : Nat) ∈ alarms (main argv create join).events := by
        rw [hpast, alarms_append]
        exact List.mem_append_left _ ((mem_alarms 0 _).mp hmem)
      rw [hal] at h0
      simp at h0
    · intro s he
      obtain ⟨hs, hpe⟩ := hex s he
      rw [hpe, hs]
      exact ⟨hst, hrest⟩

theorem process_exit_status_witness :
    ∃ p, runProc (List.replicate 9 .call)
        (Proc.start (main ["deadlock"] (fun i => if i = 3 then 11 else 0) (fun _ => 0))) =
        some p ∧
      launched p.past <+: [0, 1, 2, 3] ∧ joinedSlots p.past = [] ∧
      (p.ended = none ∨ p.ended = some (.exited 1) ∨ p.ended = some .aborted) :=
  have h := process_exit_status ["deadlock"] (fun i => if i = 3 then 11 else 0) (fun _ => 0)
    (List.replicate 9 .call) _ rfl
  have h3 := h.2.2.2.1 3 (by decide) (by decide)
  ⟨_, rfl, h3.1, h3.2.1, h.1⟩

/-! ### Facts read off the statement table -/

theorem code_lock (l : Loc) (m : Mutex) (n : Loc) (h : code l = .lock m n) :
    holds m l = false ∧ holds m n = true ∧ (∀ m', m' ≠ m → holds m' n = holds m' l) ∧
    routineOf n = routineOf l ∧ passed n = passed l ∧ atStore n = false ∧ n ≠ .l49 ∧
    passed l = false ∧ atIncrement l = false := by
  cases l <;> cases h <;> decide

theorem code_unlock (l : Loc) (m : Mutex) (n : Loc) (h : code l = .unlock m n) :
    holds m l = true ∧ holds m n = false ∧ (∀ m', m' ≠ m → holds m' n = holds m' l) ∧
    routineOf n = routineOf l ∧ passed n = passed l ∧ atStore n = false ∧ n ≠ .l49 := by
  cases l <;> cases h <;> decide

theorem code_sleep (l : Loc) (k : Nat) (n : Loc) (h : code l = .sleep k n) :
    (∀ m, holds m n = holds m l) ∧
    routineOf n = routineOf l ∧ passed n = passed l ∧ atStore n = false ∧ n ≠ .l49 ∧
    passed l = false := by
  cases l <;> cases h <;> decide

theorem code_load (l : Loc) (n : Loc) (h : code l = .load n) :
    (∀ m, holds m n = holds m l) ∧ (∀ m, holds m l = true) ∧
    routineOf n = routineOf l ∧ passed n = passed l ∧ n ≠ .l49 ∧ passed l = false := by
  cases l <;> cases h <;> decide

theorem code_store (l : Loc) (n : Loc) (h : code l = .store n) :
    (∀ m, holds m n = holds m l) ∧ (∀ m, holds m l = true) ∧
    routineOf n = routineOf l ∧ passed l = false ∧ passed n = true ∧
    atStore l = true ∧ atStore n = false ∧ n ≠ .l49 := by
  cases l <;> cases h <;> decide

theorem code_whileDone (l : Loc) (b e : Loc) (h : code l = .whileDone b e) :
    (∀ m, holds m b = holds m l) ∧ (∀ m, holds m e = holds m l) ∧ (∀ m, holds m l = false) ∧
    routineOf b = routineOf l ∧ routineOf e = routineOf l ∧
    passed b = passed l ∧ passed e = passed l ∧ passed l = false ∧
    atStore b = false ∧ atStore e = false ∧ b ≠ .l49 ∧ e = .l49 ∧ l = .l47 := by
  cases l <;> cases h
  decide

/-! ### The invariant -/

theorem pc_update_same (P : Loc → Bool) (pc : Fin 8 → Loc) (i : Fin 8) (n : Loc)
    (h : P n = P (pc i)) (j : Fin 8) : P (Function.update pc i n j) = P (pc j) := by
  by_cases hj : j = i
  · subst hj; simp [h]
  · simp [Function.update_noteq hj]

theorem passedCount_same (s s' : State) (i : Fin 8) (n : Loc)
    (hpc : s'.pc = Function.update s.pc i n) (h : passed n = passed (s.pc i)) :
    passedCount s' = passedCount s := by
  unfold passedCount
  congr 1
  ext j
  simp only [Finset.mem_filter, Finset.mem_univ, true_and]
  rw [hpc, pc_update_same passed s.pc i n h j]

theorem passedCount_succ (s s' : State) (i : Fin 8) (n : Loc)
    (hpc : s'.pc = Function.update s.pc i n) (hl : passed (s.pc i) = false)
    (hn : passed n = true) : passedCount s' = passedCount s + 1 := by
  unfold passedCount
  have hni : i ∉ Finset.univ.filter (fun j => passed (s.pc j) = true) := by
    simp [hl]
  rw [← Finset.card_insert_of_not_mem hni]
  congr 1
  ext j
  simp only [Finset.mem_filter, Finset.mem_univ, true_and, Finset.mem_insert]
  rw [hpc]
  by_cases hj : j = i
  · subst hj; simp [hn]
  · simp [Function.update_noteq hj, hj]

theorem inv_init (funcs : Fin 8 → Routine) : Inv funcs (init funcs) := by
  refine ⟨?_, ?_, ?_, ?_, ?_, ?_, ?_⟩
  · intro m j
    simp only [init]
    cases funcs j <;> cases m <;> simp [entry, holds]
  · intro j
    simp only [init]
    cases funcs j <;> decide
  · intro j
    simp only [init]
    cases funcs j <;> rfl
  · intro j _
    rfl
  · intro j h
    simp [init, joinedBy] at h
  · have : passedCount (init funcs) = 0 := by
      unfold passedCount
      rw [Finset.card_eq_zero, Finset.filter_eq_empty_iff]
      intro j _
      simp only [init]
      cases funcs j <;> decide
    rw [this]; rfl
  · intro j h
    simp only [init] at h
    cases hf : funcs j <;> rw [hf] at h <;> cases h

theorem routine_move (funcs : Fin 8 → Routine) (s s' : State) (i : Fin 8) (n : Loc)
    (hpc : s'.pc = Function.update s.pc i n) (hr : routineOf n = routineOf (s.pc i))
    (hI : ∀ j, routineOf (s.pc j) = funcs j) : ∀ j, routineOf (s'.pc j) = funcs j := by
  intro j
  rw [hpc]
  by_cases hj : j = i
  · subst hj; rw [Function.update_same, hr]; exact hI j
  · rw [Function.update_noteq hj]; exact hI j

theorem fresh_move (funcs : Fin 8 → Routine) (s s' : State) (i : Fin 8) (n : Loc)
    (hpc : s'.pc = Function.update s.pc i n) (hm : s'.main = s.main)
    (hst : started s.main i = true)
    (hI : ∀ j, started s.main j = false → s.pc j = entry (funcs j)) :
    ∀ j, started s'.main j = false → s'.pc j = entry (funcs j) := by
  intro j hj
  rw [hm] at hj
  have hne : j ≠ i := by
    intro e; subst e; rw [hst] at hj; cases hj
  rw [hpc, Function.update_noteq hne]
  exact hI j hj

theorem joined_move (s s' : State) (i : Fin 8) (n : Loc)
    (hpc : s'.pc = Function.update s.pc i n) (hm : s'.main = s.main)
    (hc : code (s.pc i) ≠ .ret)
    (hI : ∀ j, joinedBy s.main j = true → returned (s.pc j) = true) :
    ∀ j, joinedBy s'.main j = true → returned (s'.pc j) = true := by
  intro j hj
  rw [hm] at hj
  have hne : j ≠ i := by
    intro e; subst e
    have := hI j hj
    simp only [returned, decide_eq_true_eq] at this
    exact hc this
  rw [hpc, Function.update_noteq hne]
  exact hI j hj

theorem own_same (s s' : State) (i : Fin 8) (n : Loc)
    (hpc : s'.pc = Function.update s.pc i n) (ho : s'.owner = s.owner)
    (hh : ∀ m, holds m n = holds m (s.pc i))
    (hI : ∀ m j, s.owner m = some j ↔ holds m (s.pc j) = true) :
    ∀ m j, s'.owner m = some j ↔ holds m (s'.pc j) = true := by
  intro m j
  rw [hpc, ho, pc_update_same (holds m) s.pc i n (hh m) j]
  exact hI m j

theorem reg_same (s s' : State) (i : Fin 8) (n : Loc)
    (hpc : s'.pc = Function.update s.pc i n) (hr : s'.reg = s.reg) (hd : s'.done = s.done)
    (hs : atStore n = false)
    (hI : ∀ j, atStore (s.pc j) = true → s.reg j = s.done) :
    ∀ j, atStore (s'.pc j) = true → s'.reg j = s'.done := by
  intro j hj
  rw [hpc] at hj
  rw [hr, hd]
  by_cases e : j = i
  · subst e; rw [Function.update_same, hs] at hj; cases hj
  · rw [Function.update_noteq e] at hj; exact hI j hj

theorem count_same (s s' : State) (i : Fin 8) (n : Loc)
    (hpc : s'.pc = Function.update s.pc i n) (hd : s'.done = s.done)
    (hp : passed n = passed (s.pc i)) (hI : s.done = passedCount s) :
    s'.done = passedCount s' := by
  rw [hd, passedCount_same s s' i n hpc hp]; exact hI

theorem waiter_move (s s' : State) (i : Fin 8) (n : Loc)
    (hpc : s'.pc = Function.update s.pc i n) (hd : s.done ≤ s'.done)
    (hn : n = .l49 → 2 ≤ s'.done) (hI : ∀ j, s.pc j = .l49 → 2 ≤ s.done) :
    ∀ j, s'.pc j = .l49 → 2 ≤ s'.done := by
  intro j hj
  rw [hpc] at hj
  by_cases e : j = i
  · subst e; rw [Function.update_same] at hj; exact hn hj
  · rw [Function.update_noteq e] at hj; exact le_trans (hI j hj) hd

theorem inv_stepThread (funcs : Fin 8 → Routine) (i : Fin 8) (s s' : State)
    (hI : Inv funcs s) (h : stepThread i s = some s') : Inv funcs s' := by
  unfold stepThread at h
  split_ifs at h with hst
  cases hc : code (s.pc i) with
  | ret => rw [hc] at h; cases h
  | sleep k n =>
    rw [hc] at h
    simp only [exec, Option.some.injEq] at h
    subst h
    obtain ⟨hh, hr, hp, hs, h49, -⟩ := code_sleep _ _ _ hc
    have hne : code (s.pc i) ≠ .ret := by rw [hc]; exact fun e => by cases e
    exact ⟨own_same s _ i n rfl rfl hh hI.own, reg_same s _ i n rfl rfl rfl hs hI.reg,
      routine_move funcs s _ i n rfl hr hI.routine, fresh_move funcs s _ i n rfl rfl hst hI.fresh,
      joined_move s _ i n rfl rfl hne hI.joined, count_same s _ i n rfl rfl hp hI.count,
      waiter_move s _ i n rfl (le_refl _) (fun e => absurd e h49) hI.waiter⟩
  | whileDone b e =>
    rw [hc] at h
    simp only [exec, Option.some.injEq] at h
    subst h
    obtain ⟨hhb, hhe, -, hrb, hre, hpb, hpe, -, hsb, hse, hb49, -, -⟩ := code_whileDone _ _ _ hc
    have hne : code (s.pc i) ≠ .ret := by rw [hc]; exact fun e => by cases e
    by_cases hd : s.done < 2
    · simp only [hd, if_true]
      exact ⟨own_same s _ i b rfl rfl hhb hI.own, reg_same s _ i b rfl rfl rfl hsb hI.reg,
        routine_move funcs s _ i b rfl hrb hI.routine,
        fresh_move funcs s _ i b rfl rfl hst hI.fresh,
        joined_move s _ i b rfl rfl hne hI.joined, count_same s _ i b rfl rfl hpb hI.count,
        waiter_move s _ i b rfl (le_refl _) (fun e => absurd e hb49) hI.waiter⟩
    · simp only [hd, if_false]
      exact ⟨own_same s _ i e rfl rfl hhe hI.own, reg_same s _ i e rfl rfl rfl hse hI.reg,
        routine_move funcs s _ i e rfl hre hI.routine,
        fresh_move funcs s _ i e rfl rfl hst hI.fresh,
        joined_move s _ i e rfl rfl hne hI.joined, count_same s _ i e rfl rfl hpe hI.count,
        waiter_move s _ i e rfl (le_refl _) (fun _ => not_lt.mp hd) hI.waiter⟩
  | load n =>
    rw [hc] at h
    simp only [exec, Option.some.injEq] at h
    subst h
    obtain ⟨hh, -, hr, hp, h49, -⟩ := code_load _ _ hc
    have hne : code (s.pc i) ≠ .ret := by rw [hc]; exact fun e => by cases e
    refine ⟨own_same s _ i n rfl rfl hh hI.own, ?_,
      routine_move funcs s _ i n rfl hr hI.routine, fresh_move funcs s _ i n rfl rfl hst hI.fresh,
      joined_move s _ i n rfl rfl hne hI.joined, count_same s _ i n rfl rfl hp hI.count,
      waiter_move s _ i n rfl (le_refl _) (fun e => absurd e h49) hI.waiter⟩
    intro j hj
    simp only [goto] at hj ⊢
    by_cases e : j = i
    · subst e; simp
    · rw [Function.update_noteq e] at hj ⊢
      exact hI.reg j hj
  | store n =>
    rw [hc] at h
    simp only [exec, Option.some.injEq] at h
    subst h
    obtain ⟨hh, hall, hr, hpl, hpn, hsl, hsn, h49⟩ := code_store _ _ hc
    have hne : code (s.pc i) ≠ .ret := by rw [hc]; exact fun e => by cases e
    have hreg : s.reg i = s.done := hI.reg i hsl
    refine ⟨own_same s _ i n rfl rfl hh hI.own, ?_,
      routine_move funcs s _ i n rfl hr hI.routine, fresh_move funcs s _ i n rfl rfl hst hI.fresh,
      joined_move s _ i n rfl rfl hne hI.joined, ?_,
      waiter_move s _ i n rfl ?_ (fun e => absurd e h49) hI.waiter⟩
    · intro j hj
      simp only [goto] at hj ⊢
      by_cases e : j = i
      · subst e; rw [Function.update_same, hsn] at hj; cases hj
      · rw [Function.update_noteq e] at hj
        exfalso
        -- both `i` and `j` would hold `globallock`
        have hj' : atStore (s.pc j) = true := hj
        have hgj : holds .globallock (s.pc j) = true := by
          have : ∀ l, atStore l = true → holds .globallock l = true := by decide
          exact this _ hj'
        have hoi := (hI.own .globallock i).mpr (hall .globallock)
        have hoj := (hI.own .globallock j).mpr hgj
        rw [hoi] at hoj
        exact e (Option.some.inj hoj).symm
    · show s.reg i + 1 = ((passedCount _ : Nat) : Int)
      rw [passedCount_succ s _ i n rfl hpl hpn, hreg, hI.count]
      push_cast; rfl
    · show s.done ≤ s.reg i + 1
      rw [hreg]; omega
  | lock m n =>
    rw [hc] at h
    simp only [exec] at h
    split_ifs at h with hfree
    simp only [Option.some.injEq] at h
    subst h
    obtain ⟨hl, hn, hoth, hr, hp, hs, h49, -, -⟩ := code_lock _ _ _ hc
    have hne : code (s.pc i) ≠ .ret := by rw [hc]; exact fun e => by cases e
    refine ⟨?_, reg_same s _ i n rfl rfl rfl hs hI.reg,
      routine_move funcs s _ i n rfl hr hI.routine, fresh_move funcs s _ i n rfl rfl hst hI.fresh,
      joined_move s _ i n rfl rfl hne hI.joined, count_same s _ i n rfl rfl hp hI.count,
      waiter_move s _ i n rfl (le_refl _) (fun e => absurd e h49) hI.waiter⟩
    intro m' j
    simp only [goto]
    by_cases em : m' = m
    · subst em
      rw [Function.update_same]
      by_cases e : j = i
      · subst e; rw [Function.update_same, hn]; simp
      · rw [Function.update_noteq e]
        have := hI.own m' j
        rw [hfree] at this
        constructor
        · intro h; exact absurd (Option.some.inj h).symm e
        · intro h; exact absurd (this.mpr h) (by simp)
    · rw [Function.update_noteq em, pc_update_same (holds m') s.pc i n (hoth m' em) j]
      exact hI.own m' j
  | unlock m n =>
    rw [hc] at h
    simp only [exec, Option.some.injEq] at h
    subst h
    obtain ⟨hl, hn, hoth, hr, hp, hs, h49⟩ := code_unlock _ _ _ hc
    have hne : code (s.pc i) ≠ .ret := by rw [hc]; exact fun e => by cases e
    refine ⟨?_, reg_same s _ i n rfl rfl rfl hs hI.reg,
      routine_move funcs s _ i n rfl hr hI.routine, fresh_move funcs s _ i n rfl rfl hst hI.fresh,
      joined_move s _ i n rfl rfl hne hI.joined, count_same s _ i n rfl rfl hp hI.count,
      waiter_move s _ i n rfl (le_refl _) (fun e => absurd e h49) hI.waiter⟩
    intro m' j
    simp only [goto]
    by_cases em : m' = m
    · subst em
      rw [Function.update_same]
      by_cases e : j = i
      · subst e; rw [Function.update_same, hn]; simp
      · rw [Function.update_noteq e]
        have hoi := (hI.own m' i).mpr hl
        constructor
        · intro h; cases h
        · intro h
          have hoj := (hI.own m' j).mpr h
          rw [hoi] at hoj
          exact absurd (Option.some.inj hoj).symm e
    · rw [Function.update_noteq em, pc_update_same (holds m') s.pc i n (hoth m' em) j]
      exact hI.own m' j

theorem nextSlot_some (i k : Fin 8) (h : nextSlot i = some k) : k.val = i.val + 1 := by
  unfold nextSlot at h
  split_ifs at h
  simp only [Option.some.injEq] at h
  rw [← h]

theorem nextSlot_none (i : Fin 8) (h : nextSlot i = none) : i.val = 7 := by
  unfold nextSlot at h
  split_ifs at h with hlt
  have := i.isLt
  omega

theorem inv_stepMain (funcs : Fin 8 → Routine) (s s' : State)
    (hI : Inv funcs s) (h : stepMain s = some s') : Inv funcs s' := by
  unfold stepMain at h
  cases hm : s.main with
  | returned => rw [hm] at h; cases h
  | create i =>
    rw [hm] at h
    simp only [Option.some.injEq] at h
    subst h
    refine ⟨hI.own, hI.reg, hI.routine, ?_, ?_, hI.count, hI.waiter⟩
    · intro j hj
      apply hI.fresh j
      rw [hm]
      cases hn : nextSlot i with
      | none => simp [hn, started] at hj
      | some k =>
        simp only [hn, started, decide_eq_false_iff_not, not_lt] at hj ⊢
        have := nextSlot_some i k hn
        rw [Fin.le_def] at hj ⊢
        omega
    · intro j hj
      cases hn : nextSlot i with
      | none => simp [hn, joinedBy] at hj
      | some k => simp [hn, joinedBy] at hj
  | join i =>
    rw [hm] at h
    simp only at h
    split_ifs at h with hret
    simp only [Option.some.injEq] at h
    subst h
    refine ⟨hI.own, hI.reg, hI.routine, ?_, ?_, hI.count, hI.waiter⟩
    · intro j hj
      cases hn : nextSlot i with
      | none => simp [hn, started] at hj
      | some k => simp [hn, started] at hj
    · intro j hj
      by_cases e : j = i
      · subst e; exact hret
      · apply hI.joined j
        rw [hm]
        simp only [joinedBy, decide_eq_true_eq]
        cases hn : nextSlot i with
        | none =>
          have := nextSlot_none i hn
          have hj7 := j.isLt
          rw [Fin.lt_def]
          have : j.val ≠ i.val := fun h => e (Fin.ext h)
          omega
        | some k =>
          simp only [hn, joinedBy, decide_eq_true_eq] at hj
          have := nextSlot_some i k hn
          rw [Fin.lt_def] at hj ⊢
          have : j.val ≠ i.val := fun h => e (Fin.ext h)
          omega

theorem inv_step (funcs : Fin 8 → Routine) (a : Agent) (s s' : State)
    (hI : Inv funcs s) (h : step a s = some s') : Inv funcs s' := by
  cases a with
  | main => exact inv_stepMain funcs s s' hI h
  | thread i => exact inv_stepThread funcs i s s' hI h

theorem inv_run (funcs : Fin 8 → Routine) (sched : List Agent) :
    ∀ s s', Inv funcs s → run sched s = some s' → Inv funcs s' := by
  induction sched with
  | nil =>
    intro s s' hI h
    simp only [run, Option.some.injEq] at h
    exact h ▸ hI
  | cons a as ih =>
    intro s s' hI h
    simp only [run] at h
    cases hs : step a s with
    | none => simp [hs] at h
    | some q =>
      rw [hs] at h
      exact ih q s' (inv_step funcs a s q hI hs) h

theorem inv_reachable (funcs : Fin 8 → Routine) (s : State) (h : Reachable funcs s) :
    Inv funcs s := by
  obtain ⟨sched, hs⟩ := h
  exact inv_run funcs sched _ s (inv_init funcs) hs

theorem run_append (s1 s2 : List Agent) (s : State) :
    run (s1 ++ s2) s = (run s1 s).bind (run s2) := by
  induction s1 generalizing s with
  | nil => rfl
  | cons a as ih =>
    simp only [List.cons_append, run]
    cases step a s with
    | none => rfl
    | some q => exact ih q

theorem reach_refl (s : State) : Reach s s := ⟨[], rfl⟩

theorem reach_trans (s t u : State) (h1 : Reach s t) (h2 : Reach t u) : Reach s u := by
  obtain ⟨a, ha⟩ := h1
  obtain ⟨b, hb⟩ := h2
  exact ⟨a ++ b, by rw [run_append, ha]; exact hb⟩

theorem reach_step (a : Agent) (s t : State) (h : step a s = some t) : Reach s t :=
  ⟨[a], by simp [run, h]⟩

theorem inv_reach (funcs : Fin 8 → Routine) (s t : State) (hI : Inv funcs s)
    (h : Reach s t) : Inv funcs t := by
  obtain ⟨sched, hs⟩ := h
  exact inv_run funcs sched s t hI hs

/-- Induction over the states reached from `s`. -/
theorem reach_induction (P : State → Prop) (s : State) (h0 : P s)
    (hstep : ∀ a t u, Reach s t → P t → step a t = some u → P u) :
    ∀ t, Reach s t → P t := by
  intro t ⟨sched, hs⟩
  induction sched using List.reverseRecOn generalizing t with
  | nil =>
    simp only [run, Option.some.injEq] at hs
    exact hs ▸ h0
  | append_singleton as a ih =>
    rw [run_append] at hs
    cases hq : run as s with
    | none => simp [hq] at hs
    | some q =>
      rw [hq] at hs
      simp only [Option.bind, run] at hs
      cases hst : step a q with
      | none => simp [hst] at hs
      | some u =>
        rw [hst] at hs
        simp only [Option.some.injEq] at hs
        subst hs
        exact hstep a q u ⟨as, hq⟩ (ih q hq) hst

theorem mainFuncs_lock_ordering (argv : List String) (j : Fin 8)
    (h : mainFuncs argv j = .normal ∨ mainFuncs argv j = .inverted) : j = 0 ∨ j = 4 := by
  rcases mainFuncs_cases argv with ⟨-, hf⟩ | ⟨-, hf⟩ <;> rw [hf] at h <;> revert j <;> decide

theorem passed_routine (l : Loc) (h : passed l = true) :
    routineOf l = .normal ∨ routineOf l = .inverted := by
  revert l; decide

theorem atIncrement_holds (l : Loc) (h : atIncrement l = true) (m : Mutex) :
    holds m l = true := by
  revert l m; decide

theorem step_done (funcs : Fin 8 → Routine) (a : Agent) (s t : State) (hI : Inv funcs s)
    (h : step a s = some t) (hd : t.done ≠ s.done) :
    ∃ i, a = .thread i ∧ atStore (s.pc i) = true ∧ t.done = s.done + 1 := by
  cases a with
  | main =>
    exfalso
    apply hd
    simp only [step, stepMain] at h
    cases hm : s.main with
    | returned => rw [hm] at h; cases h
    | create i => rw [hm] at h; simp only [Option.some.injEq] at h; rw [← h]
    | join i =>
      rw [hm] at h
      simp only at h
      split_ifs at h
      simp only [Option.some.injEq] at h
      rw [← h]
  | thread i =>
    refine ⟨i, rfl, ?_⟩
    simp only [step, stepThread] at h
    split_ifs at h with hst
    cases hc : code (s.pc i) with
    | ret => rw [hc] at h; cases h
    | sleep k n =>
      rw [hc] at h; simp only [exec, Option.some.injEq] at h
      exact absurd (by rw [← h]; rfl) hd
    | whileDone b e =>
      rw [hc] at h; simp only [exec, Option.some.injEq] at h
      exact absurd (by rw [← h]; rfl) hd
    | load n =>
      rw [hc] at h; simp only [exec, Option.some.injEq] at h
      exact absurd (by rw [← h]; rfl) hd
    | lock m n =>
      rw [hc] at h; simp only [exec] at h
      split_ifs at h
      simp only [Option.some.injEq] at h
      exact absurd (by rw [← h]; rfl) hd
    | unlock m n =>
      rw [hc] at h; simp only [exec, Option.some.injEq] at h
      exact absurd (by rw [← h]; rfl) hd
    | store n =>
      have hs : atStore (s.pc i) = true := (code_store _ _ hc).2.2.2.2.2.1
      refine ⟨hs, ?_⟩
      rw [hc] at h; simp only [exec, Option.some.injEq] at h
      rw [← h]
      show s.reg i + 1 = s.done + 1
      rw [hI.reg i hs]

/-- C10: in both rosters of `main`, in every reachable state a thread inside
`done += 1` (before the read, or between read and write-back) owns both `globallock`
and `speciallock`, so no two threads are inside it at once; a step that changes `done`
is the write-back of such a thread and adds exactly 1; `done` equals the number
of threads that have completed their `done += 1`, and is at most 2. -/
theorem done_counts_increments (argv : List String) (s : State)
    (hs : Reachable (mainFuncs argv) s) :
    (∀ i, atIncrement (s.pc i) = true →
      s.owner .globallock = some i ∧ s.owner .speciallock = some i) ∧
    (∀ i j, atIncrement (s.pc i) = true → atIncrement (s.pc j) = true → i = j) ∧
    (∀ a t, step a s = some t → t.done ≠ s.done →
      ∃ i, a = .thread i ∧ atIncrement (s.pc i) = true ∧
        s.owner .globallock = some i ∧ s.owner .speciallock = some i ∧
        t.done = s.done + 1) ∧
    s.done = passedCount s ∧ s.done ≤ 2 := by
  have hI := inv_reachable _ s hs
  have hboth : ∀ i, atIncrement (s.pc i) = true →
      s.owner .globallock = some i ∧ s.owner .speciallock = some i := fun i hi =>
    ⟨(hI.own _ i).mpr (atIncrement_holds _ hi _), (hI.own _ i).mpr (atIncrement_holds _ hi _)⟩
  refine ⟨hboth, ?_, ?_, hI.count, ?_⟩
  · intro i j hi hj
    have h1 := (hboth i hi).1
    rw [(hboth j hj).1] at h1
    exact (Option.some.inj h1).symm
  · intro a t hstep hd
    obtain ⟨i, ha, hst, hdone⟩ := step_done _ a s t hI hstep hd
    have hinc : atIncrement (s.pc i) = true := by
      have : ∀ l, atStore l = true → atIncrement l = true := by decide
      exact this _ hst
    exact ⟨i, ha, hinc, (hboth i hinc).1, (hboth i hinc).2, hdone⟩
  · rw [hI.count]
    have hsub : Finset.univ.filter (fun j => passed (s.pc j) = true) ⊆ ({0, 4} : Finset (Fin 8)) := by
      intro j hj
      simp only [Finset.mem_filter, Finset.mem_univ, true_and] at hj
      have hr := passed_routine _ hj
      rw [hI.routine j] at hr
      rcases mainFuncs_lock_ordering argv j hr with h | h <;> simp [h]
    have := Finset.card_le_card hsub
    have h2 : ({0, 4} : Finset (Fin 8)).card = 2 := by decide
    unfold passedCount
    omega

theorem done_counts_increments_witness :
    ∃ s, run (times 8 .main ++ times 6 (.thread 0)) (init (mainFuncs ["deadlock"])) = some s ∧
      s.done = 1 ∧ s.done = passedCount s ∧ s.done ≤ 2 :=
  ⟨_, rfl, by decide,
    (done_counts_increments ["deadlock"] _ ⟨times 8 .main ++ times 6 (.thread 0), rfl⟩).2.2.2⟩

theorem stepThread_shape (i : Fin 8) (s t : State) (h : stepThread i s = some t) :
    started s.main i = true ∧ t.main = s.main ∧ (∀ j, j ≠ i → t.pc j = s.pc j) ∧
    match code (s.pc i) with
    | .sleep _ n => t.pc i = n ∧ t.owner = s.owner ∧ t.done = s.done
    | .lock m n => s.owner m = none ∧ t.pc i = n ∧
        t.owner = Function.update s.owner m (some i) ∧ t.done = s.done
    | .unlock m n => t.pc i = n ∧ t.owner = Function.update s.owner m none ∧ t.done = s.done
    | .load n => t.pc i = n ∧ t.owner = s.owner ∧ t.done = s.done
    | .store n => t.pc i = n ∧ t.owner = s.owner ∧ t.done = s.reg i + 1
    | .whileDone b e => t.pc i = (if s.done < 2 then b else e) ∧ t.owner = s.owner ∧
        t.done = s.done
    | .ret => False := by
  unfold stepThread at h
  split_ifs at h with hst
  cases hc : code (s.pc i) with
  | ret => rw [hc] at h; cases h
  | sleep k n =>
    rw [hc] at h; simp only [exec, Option.some.injEq] at h; subst h
    exact ⟨hst, rfl, fun j hj => Function.update_noteq hj _ _, Function.update_same _ _ _,
      rfl, rfl⟩
  | whileDone b e =>
    rw [hc] at h; simp only [exec, Option.some.injEq] at h; subst h
    exact ⟨hst, rfl, fun j hj => Function.update_noteq hj _ _, Function.update_same _ _ _,
      rfl, rfl⟩
  | load n =>
    rw [hc] at h; simp only [exec, Option.some.injEq] at h; subst h
    exact ⟨hst, rfl, fun j hj => Function.update_noteq hj _ _, Function.update_same _ _ _,
      rfl, rfl⟩
  | store n =>
    rw [hc] at h; simp only [exec, Option.some.injEq] at h; subst h
    exact ⟨hst, rfl, fun j hj => Function.update_noteq hj _ _, Function.update_same _ _ _,
      rfl, rfl⟩
  | unlock m n =>
    rw [hc] at h; simp only [exec, Option.some.injEq] at h; subst h
    exact ⟨hst, rfl, fun j hj => Function.update_noteq hj _ _, Function.update_same _ _ _,
      rfl, rfl⟩
  | lock m n =>
    rw [hc] at h; simp only [exec] at h
    split_ifs at h with hfree
    simp only [Option.some.injEq] at h; subst h
    exact ⟨hst, rfl, fun j hj => Function.update_noteq hj _ _, hfree,
      Function.update_same _ _ _, rfl, rfl⟩

theorem stepMain_shape (s t : State) (h : stepMain s = some t) :
    t.pc = s.pc ∧ t.owner = s.owner ∧ t.done = s.done ∧ t.reg = s.reg ∧
    match s.main with
    | .create i => t.main = (match nextSlot i with
        | some k => .create k
        | none => .join 0)
    | .join i => returned (s.pc i) = true ∧ t.main = (match nextSlot i with
        | some k => .join k
        | none => .returned)
    | .returned => False := by
  unfold stepMain at h
  cases hm : s.main with
  | returned => rw [hm] at h; cases h
  | create i =>
    rw [hm] at h; simp only [Option.some.injEq] at h; subst h
    exact ⟨rfl, rfl, rfl, rfl, rfl⟩
  | join i =>
    rw [hm] at h; simp only at h
    split_ifs at h with hret
    simp only [Option.some.injEq] at h; subst h
    exact ⟨rfl, rfl, rfl, rfl, hret, rfl⟩

theorem nolock_funcs (argv : List String) (h : argv.get? 1 = some "nolock") :
    mainFuncs argv = Function.update funcsInit 4 .normal := by
  rcases mainFuncs_cases argv with ⟨-, hf⟩ | ⟨hn, -⟩
  · exact hf
  · exact absurd h hn

theorem default_funcs (argv : List String) (h : argv.get? 1 ≠ some "nolock") :
    mainFuncs argv = funcsInit := by
  rcases mainFuncs_cases argv with ⟨hn, -⟩ | ⟨-, hf⟩
  · exact absurd hn h
  · exact hf

theorem returned_normal_passed (l : Loc) (hr : returned l = true)
    (hn : routineOf l = .normal ∨ routineOf l = .inverted) : passed l = true := by
  revert l; decide

theorem nolock_all_returned_done (s : State)
    (hI : Inv (Function.update funcsInit 4 .normal) s)
    (hall : ∀ i, returned (s.pc i) = true) : s.done = 2 := by
  rw [hI.count]
  have hset : Finset.univ.filter (fun j => passed (s.pc j) = true) = ({0, 4} : Finset (Fin 8)) := by
    ext j
    simp only [Finset.mem_filter, Finset.mem_univ, true_and, Finset.mem_insert,
      Finset.mem_singleton]
    constructor
    · intro hj
      have hr := passed_routine _ hj
      rw [hI.routine j] at hr
      have key : ∀ j : Fin 8, (Function.update funcsInit 4 Routine.normal j = .normal ∨
          Function.update funcsInit 4 Routine.normal j = .inverted) → j = 0 ∨ j = 4 := by
        decide
      exact key j hr
    · intro hj
      apply returned_normal_passed _ (hall j)
      rw [hI.routine j]
      rcases hj with h | h <;> subst h <;> decide
  unfold passedCount
  rw [hset]
  decide

/-- C6: in the `nolock` roster, every reachable state in which all eight threads have
returned has `done = 2`, and so has every state in which `main` has returned from all
eight joins (status 0); a waiter (`other`) has returned only in states with `done >= 2`,
and the step by which it returns is its own loop test taken with `done >= 2`. -/
theorem nolock_counter_at_exit (argv : List String) (hno : argv.get? 1 = some "nolock")
    (s : State) (hs : Reachable (mainFuncs argv) s) :
    ((∀ i, returned (s.pc i) = true) → s.done = 2) ∧
    (s.main = .returned → (∀ i, returned (s.pc i) = true) ∧ s.done = 2) ∧
    (∀ j, mainFuncs argv j = .other → returned (s.pc j) = true → 2 ≤ s.done) ∧
    (∀ a t j, mainFuncs argv j = .other → step a s = some t →
      returned (s.pc j) = false → returned (t.pc j) = true →
      a = .thread j ∧ 2 ≤ s.done ∧ t.done = s.done) := by
  have hI := inv_reachable _ s hs
  have hI' := hI
  rw [nolock_funcs argv hno] at hI'
  refine ⟨nolock_all_returned_done s hI', ?_, ?_, ?_⟩
  · intro hm
    have hall : ∀ i, returned (s.pc i) = true := fun i => hI.joined i (by rw [hm]; rfl)
    exact ⟨hall, nolock_all_returned_done s hI' hall⟩
  · intro j hj hr
    apply hI.waiter j
    have hro := hI.routine j
    rw [hj] at hro
    revert hr hro
    generalize s.pc j = l
    revert l; decide
  · intro a t j hj hstep hr0 hr1
    cases a with
    | main =>
      have := (stepMain_shape s t hstep).1
      rw [this, hr0] at hr1; cases hr1
    | thread i =>
      obtain ⟨-, -, hoth, hsh⟩ := stepThread_shape i s t hstep
      by_cases e : j = i
      · subst e
        have hro := hI.routine j
        rw [hj] at hro
        refine ⟨rfl, ?_⟩
        cases hc : code (s.pc j) with
        | ret => rw [hc] at hsh; exact absurd hsh id
        | whileDone b e =>
          rw [hc] at hsh
          obtain ⟨hpc, -, hd⟩ := hsh
          obtain ⟨-, -, -, -, -, -, -, -, -, -, -, -, -⟩ := code_whileDone _ _ _ hc
          by_cases hlt : s.done < 2
          · rw [if_pos hlt] at hpc
            have hb : returned b = false := by
              have : ∀ l b e, code l = .whileDone b e → returned b = false := by
                intro l b e h; cases l <;> cases h; decide
              exact this _ _ _ hc
            rw [hpc, hb] at hr1; cases hr1
          · exact ⟨not_lt.mp hlt, hd⟩
        | sleep k n =>
          rw [hc] at hsh
          have hn : returned n = false := by
            have : ∀ l k n, code l = .sleep k n → returned n = false := by
              intro l k n h; cases l <;> cases h <;> decide
            exact this _ _ _ hc
          rw [hsh.1, hn] at hr1; cases hr1
        | lock m n =>
          exfalso
          have : ∀ l m n, code l = .lock m n → routineOf l ≠ .other := by
            intro l m n h; cases l <;> cases h <;> decide
          exact this _ _ _ hc hro
        | unlock m n =>
          exfalso
          have : ∀ l m n, code l = .unlock m n → routineOf l ≠ .other := by
            intro l m n h; cases l <;> cases h <;> decide
          exact this _ _ _ hc hro
        | load n =>
          exfalso
          have : ∀ l n, code l = .load n → routineOf l ≠ .other := by
            intro l n h; cases l <;> cases h <;> decide
          exact this _ _ hc hro
        | store n =>
          exfalso
          have : ∀ l n, code l = .store n → routineOf l ≠ .other := by
            intro l n h; cases l <;> cases h <;> decide
          exact this _ _ hc hro
      · rw [hoth j e, hr0] at hr1; cases hr1

theorem nolock_counter_at_exit_witness :
    ∃ s, run serialSchedule (init (mainFuncs ["deadlock", "nolock"])) = some s ∧
      s.main = .returned ∧ (∀ i, returned (s.pc i) = true) ∧ s.done = 2 :=
  ⟨_, rfl, by decide,
    (nolock_counter_at_exit ["deadlock", "nolock"] (by decide) _
      ⟨serialSchedule, rfl⟩).2.1 (by decide)⟩

/-! ### The default roster: crossing the locks -/

theorem holds_not_returned (m : Mutex) (l : Loc) (h : holds m l = true) :
    returned l = false := by
  revert m l; decide

theorem sleep_next_not_returned (l : Loc) (k : Nat) (n : Loc) (h : code l = .sleep k n) :
    returned n = false := by
  cases l <;> cases h <;> decide

theorem whileDone_body_not_returned (l b e : Loc) (h : code l = .whileDone b e) :
    returned b = false := by
  cases l <;> cases h
  decide

theorem unlock_passed (l : Loc) (m : Mutex) (n : Loc) (h : code l = .unlock m n)
    (hr : routineOf l = .normal ∨ routineOf l = .inverted) : passed l = true := by
  cases l <;> cases h <;> revert hr <;> decide

theorem passedCount_pos (s : State) (i : Fin 8) (h : passed (s.pc i) = true) :
    1 ≤ passedCount s := by
  unfold passedCount
  exact Finset.card_pos.mpr ⟨i, by simp [h]⟩

theorem started_mono (s t : State) (a : Agent) (h : step a s = some t) (j : Fin 8)
    (hj : started s.main j = true) : started t.main j = true := by
  cases a with
  | thread i => rw [(stepThread_shape i s t h).2.1]; exact hj
  | main =>
    have hsh := (stepMain_shape s t h).2.2.2.2
    cases hm : s.main with
    | returned => rw [hm] at hsh; exact absurd hsh id
    | join i =>
      rw [hm] at hsh
      rw [hsh.2]
      cases nextSlot i <;> rfl
    | create i =>
      rw [hm] at hsh hj
      rw [hsh]
      cases hn : nextSlot i with
      | none => rfl
      | some k =>
        simp only [started, decide_eq_true_eq] at hj ⊢
        have := nextSlot_some i k hn
        rw [Fin.lt_def] at hj ⊢
        omega

theorem crossed_step (s t : State) (a : Agent) (hI : Inv funcsInit s) (hc : Crossed s)
    (h : step a s = some t) :
    Crossed t ∧ (∀ j, returned (t.pc j) = true → returned (s.pc j) = true) ∧
    (∀ j m n, code (s.pc j) = .lock m n → t.pc j = s.pc j) ∧
    joinedBy t.main 0 = false := by
  obtain ⟨hG, hS, hd⟩ := hc
  have h0 : returned (s.pc 0) = false :=
    holds_not_returned _ _ ((hI.own .globallock 0).mp hG)
  have hj0 : joinedBy s.main 0 = false := by
    cases hj : joinedBy s.main 0 with
    | false => rfl
    | true => rw [hI.joined 0 hj] at h0; cases h0
  have howner : ∀ m, s.owner m ≠ none := by
    intro m; cases m
    · rw [hG]; exact fun e => by cases e
    · rw [hS]; exact fun e => by cases e
  cases a with
  | main =>
    obtain ⟨hpc, ho, hdn, -, hsh⟩ := stepMain_shape s t h
    refine ⟨⟨by rw [ho]; exact hG, by rw [ho]; exact hS, by rw [hdn]; exact hd⟩,
      fun j hj => by rw [hpc] at hj; exact hj, fun j m n _ => by rw [hpc], ?_⟩
    cases hm : s.main with
    | returned => rw [hm] at hsh; exact absurd hsh id
    | create i =>
      rw [hm] at hsh; rw [hsh]
      cases nextSlot i <;> rfl
    | join i =>
      rw [hm] at hsh hj0
      have hi : i = 0 := by
        simp only [joinedBy, decide_eq_false_iff_not, not_lt] at hj0
        exact le_antisymm hj0 (Fin.zero_le i)
      subst hi
      rw [hsh.1] at h0; cases h0
  | thread i =>
    obtain ⟨hst, hmain, hoth, hsh⟩ := stepThread_shape i s t h
    have hro := hI.routine i
    have frame : t.owner = s.owner → t.done = s.done → returned (t.pc i) = false →
        (∀ m n, code (s.pc i) ≠ .lock m n) →
        Crossed t ∧ (∀ j, returned (t.pc j) = true → returned (s.pc j) = true) ∧
        (∀ j m n, code (s.pc j) = .lock m n → t.pc j = s.pc j) ∧
        joinedBy t.main 0 = false := by
      intro ho hdn hr hnl
      refine ⟨⟨by rw [ho]; exact hG, by rw [ho]; exact hS, by rw [hdn]; exact hd⟩, ?_, ?_,
        by rw [hmain]; exact hj0⟩
      · intro j hj
        by_cases e : j = i
        · subst e; rw [hr] at hj; cases hj
        · rw [hoth j e] at hj; exact hj
      · intro j m n hj
        by_cases e : j = i
        · subst e; exact absurd hj (hnl m n)
        · exact hoth j e
    cases hcode : code (s.pc i) with
    | ret => rw [hcode] at hsh; exact absurd hsh id
    | sleep k n =>
      rw [hcode] at hsh
      exact frame hsh.2.1 hsh.2.2 (by rw [hsh.1]; exact sleep_next_not_returned _ _ _ hcode)
        (fun m n e => by rw [hcode] at e; cases e)
    | whileDone b e =>
      rw [hcode] at hsh
      have hlt : s.done < 2 := by rw [hd]; decide
      obtain ⟨hpc, ho, hdn⟩ := hsh
      rw [if_pos hlt] at hpc
      exact frame ho hdn
        (by rw [hpc]; exact whileDone_body_not_returned _ _ _ hcode)
        (fun m n e => by rw [hcode] at e; cases e)
    | load n =>
      exfalso
      have hall := (code_load _ _ hcode).2.1
      have h1 := (hI.own .globallock i).mpr (hall _)
      have h2 := (hI.own .speciallock i).mpr (hall _)
      rw [hG] at h1; rw [hS] at h2
      have e1 := Option.some.inj h1
      have e2 := Option.some.inj h2
      rw [← e1] at e2
      exact absurd e2 (by decide)
    | store n =>
      exfalso
      have hall := (code_store _ _ hcode).2.1
      have h1 := (hI.own .globallock i).mpr (hall _)
      have h2 := (hI.own .speciallock i).mpr (hall _)
      rw [hG] at h1; rw [hS] at h2
      have e1 := Option.some.inj h1
      have e2 := Option.some.inj h2
      rw [← e1] at e2
      exact absurd e2 (by decide)
    | lock m n =>
      rw [hcode] at hsh
      exact absurd hsh.1 (howner m)
    | unlock m n =>
      exfalso
      have hh := (code_unlock _ _ _ hcode).1
      have ho := (hI.own m i).mpr hh
      have hlo : funcsInit i = .normal ∨ funcsInit i = .inverted := by
        cases m
        · rw [hG] at ho
          rw [← Option.some.inj ho]; decide
        · rw [hS] at ho
          rw [← Option.some.inj ho]; decide
      rw [← hro] at hlo
      have hp := unlock_passed _ _ _ hcode hlo
      have := passedCount_pos s i hp
      have hcount := hI.count
      rw [hd] at hcount
      omega

theorem crossed_reach (s : State) (hI : Inv funcsInit s) (hc : Crossed s) :
    ∀ t, Reach s t →
      Inv funcsInit t ∧ Crossed t ∧ (∀ j, returned (t.pc j) = true → returned (s.pc j) = true) ∧
      (∀ j m n, code (s.pc j) = .lock m n → t.pc j = s.pc j) ∧
      (∀ j, started s.main j = true → started t.main j = true) ∧
      joinedBy t.main 0 = false := by
  have hj0 : joinedBy s.main 0 = false := by
    have h0 : returned (s.pc 0) = false :=
      holds_not_returned _ _ ((hI.own .globallock 0).mp hc.1)
    cases hj : joinedBy s.main 0 with
    | false => rfl
    | true => rw [hI.joined 0 hj] at h0; cases h0
  refine reach_induction _ s ⟨hI, hc, fun _ h => h, fun _ _ _ _ => rfl, fun _ h => h, hj0⟩ ?_
  intro a t u _ ⟨hIt, hct, hret, hlock, hstart, _⟩ hstep
  obtain ⟨hcu, hret', hlock', hj'⟩ := crossed_step t u a hIt hct hstep
  refine ⟨inv_step _ a t u hIt hstep, hcu, fun j hj => hret j (hret' j hj), ?_,
    fun j hj => started_mono t u a hstep j (hstart j hj), hj'⟩
  intro j m n hj
  have e := hlock j m n hj
  rw [← e] at hj
  rw [hlock' j m n hj, e]

theorem circular_crossed (s : State) (hI : Inv funcsInit s) (hc : CircularWait s) :
    Crossed s := by
  obtain ⟨hG, ⟨-, ⟨n0, h0⟩, -⟩, hS, ⟨-, ⟨n4, h4⟩, -⟩⟩ := hc
  refine ⟨hG, hS, ?_⟩
  rw [hI.count]
  have : passedCount s = 0 := by
    unfold passedCount
    rw [Finset.card_eq_zero, Finset.filter_eq_empty_iff]
    intro j _ hj
    have hr := passed_routine _ hj
    rw [hI.routine j] at hr
    have key : ∀ j : Fin 8, (funcsInit j = .normal ∨ funcsInit j = .inverted) →
        j = 0 ∨ j = 4 := by decide
    rcases key j hr with e | e
    · subst e
      rw [(code_lock _ _ _ h0).2.2.2.2.2.2.2.1] at hj; cases hj
    · subst e
      rw [(code_lock _ _ _ h4).2.2.2.2.2.2.2.1] at hj; cases hj
  rw [this]; rfl

theorem circular_deadlocked (s : State) (hc : CircularWait s) : Deadlocked s := by
  obtain ⟨hG, hb0, hS, hb4⟩ := hc
  refine ⟨{0, 4}, ⟨0, by simp⟩, ?_⟩
  intro i hi
  simp only [Finset.mem_insert, Finset.mem_singleton] at hi
  rcases hi with e | e
  · subst e; exact ⟨.speciallock, hb0, 4, by simp, hS⟩
  · subst e; exact ⟨.globallock, hb4, 0, by simp, hG⟩

/-- C4: in the default roster there is an interleaving that reaches a state in which
slot 0 holds `globallock` and is blocked on `speciallock` while slot 4 holds
`speciallock` and is blocked on `globallock`; from every reachable such state, every
state reached later is again such a circular wait (a deadlock of slots 0 and 4), in
which neither slot 0 nor slot 4 has returned, `done` is unchanged, no waiter has
returned, no `irrelevant` thread that had not returned has returned, and the
`pthread_join` of slot 0 has not returned. -/
theorem circular_wait (argv : List String) (hdef : argv.get? 1 ≠ some "nolock") :
    (∃ s, Reachable (mainFuncs argv) s ∧ CircularWait s) ∧
    ∀ s, Reachable (mainFuncs argv) s → CircularWait s → ∀ t, Reach s t →
      CircularWait t ∧ Deadlocked t ∧
      returned (t.pc 0) = false ∧ returned (t.pc 4) = false ∧ t.done = s.done ∧
      (∀ j, mainFuncs argv j = .other → returned (t.pc j) = false) ∧
      (∀ j, mainFuncs argv j = .irrelevant → returned (s.pc j) = false →
        returned (t.pc j) = false) ∧
      joinedBy t.main 0 = false := by
  rw [default_funcs argv hdef]
  constructor
  · refine ⟨_, ⟨crossSchedule, rfl⟩, by decide, ⟨by decide, ⟨.l26, by decide⟩, by decide⟩,
      by decide, ⟨by decide, ⟨.l38, by decide⟩, by decide⟩⟩
  · intro s hs hc t hst
    have hI := inv_reachable _ s hs
    have hcr := circular_crossed s hI hc
    obtain ⟨hIt, hct, hret, hlock, hstart, hj0⟩ := crossed_reach s hI hcr t hst
    obtain ⟨hG, ⟨hs0, ⟨n0, h0⟩, -⟩, hS, ⟨hs4, ⟨n4, h4⟩, -⟩⟩ := hc
    have hp0 := hlock 0 _ _ h0
    have hp4 := hlock 4 _ _ h4
    have hcw : CircularWait t := by
      refine ⟨hct.1, ⟨hstart 0 hs0, ⟨n0, by rw [hp0]; exact h0⟩, ?_⟩, hct.2.1,
        ⟨hstart 4 hs4, ⟨n4, by rw [hp4]; exact h4⟩, ?_⟩⟩
      · rw [hct.2.1]; exact fun e => by cases e
      · rw [hct.1]; exact fun e => by cases e
    have hnr : ∀ j, returned (s.pc j) = false → returned (t.pc j) = false := by
      intro j hj
      cases hr : returned (t.pc j) with
      | false => rfl
      | true => rw [hret j hr] at hj; cases hj
    refine ⟨hcw, circular_deadlocked t hcw, ?_, ?_, by rw [hct.2.2, hcr.2.2], ?_,
      fun j _ hj => hnr j hj, hj0⟩
    · exact holds_not_returned _ _ ((hIt.own .globallock 0).mp hct.1)
    · exact holds_not_returned _ _ ((hIt.own .speciallock 4).mp hct.2.1)
    · intro j hj
      cases hr : returned (t.pc j) with
      | false => rfl
      | true =>
        exfalso
        have hro := hIt.routine j
        rw [hj] at hro
        have h49 : t.pc j = .l49 := by
          revert hr hro
          generalize t.pc j = l
          revert l; decide
        have := hIt.waiter j h49
        rw [hct.2.2] at this
        exact absurd this (by decide)

theorem circular_wait_witness :
    ∃ s t, run crossSchedule (init (mainFuncs ["deadlock"])) = some s ∧
      run [.thread 2, .thread 1, .thread 2] s = some t ∧
      CircularWait t ∧ t.done = s.done ∧ joinedBy t.main 0 = false :=
  have hs : Reachable (mainFuncs ["deadlock"]) _ := ⟨crossSchedule, rfl⟩
  have hc : CircularWait _ :=
    ⟨by decide, ⟨by decide, ⟨.l26, by decide⟩, by decide⟩,
      by decide, ⟨by decide, ⟨.l38, by decide⟩, by decide⟩⟩
  have h := (circular_wait ["deadlock"] (by decide)).2 _ hs hc _
    ⟨[.thread 2, .thread 1, .thread 2], rfl⟩
  ⟨_, _, rfl, rfl, h.1, h.2.2.2.2.1, h.2.2.2.2.2.2.2⟩

/-- C5, as stated, fails: in the default roster the interleaving in which slot 0 runs
`normal` to its end before slot 4 starts `inverted` is an execution in which `done`
reaches 2, all eight threads return and `main` returns from its eight joins. -/
theorem default_roster_completes_counterexample :
    ∃ s, run serialSchedule (init (mainFuncs ["deadlock"])) = some s ∧
      s.done = 2 ∧ s.main = .returned ∧ ∀ i, returned (s.pc i) = true :=
  ⟨_, rfl, by decide, by decide, by decide⟩

/-- C5, amended: the mode flag alone does not determine the outcome of the default
roster, the interleaving does too. In every execution of the default roster that
passes through a state in which slot 0 owns `globallock` and slot 4 owns `speciallock`
while `done` is still 0 (such a state is reachable), from then on `done` stays 0, so
never reaches 2, no further thread returns, and `main` never returns from its joins
(no exit status 0). -/
theorem crossed_never_completes (argv : List String) (hdef : argv.get? 1 ≠ some "nolock") :
    (∃ s, Reachable (mainFuncs argv) s ∧ Crossed s) ∧
    ∀ s, Reachable (mainFuncs argv) s → Crossed s → ∀ t, Reach s t →
      t.done = 0 ∧ t.done < 2 ∧ t.main ≠ .returned ∧
      (∀ i, returned (t.pc i) = true → returned (s.pc i) = true) ∧
      returned (t.pc 0) = false ∧ returned (t.pc 4) = false := by
  rw [default_funcs argv hdef]
  constructor
  · exact ⟨_, ⟨crossSchedule, rfl⟩, by decide, by decide, by decide⟩
  · intro s hs hc t hst
    have hI := inv_reachable _ s hs
    obtain ⟨hIt, hct, hret, -, -, hj0⟩ := crossed_reach s hI hc t hst
    refine ⟨hct.2.2, by rw [hct.2.2]; decide, ?_, hret, ?_, ?_⟩
    · intro hm
      rw [hm] at hj0; cases hj0
    · exact holds_not_returned _ _ ((hIt.own .globallock 0).mp hct.1)
    · exact holds_not_returned _ _ ((hIt.own .speciallock 4).mp hct.2.1)

theorem crossed_never_completes_witness :
    ∃ s t, run crossScheduleInverted (init (mainFuncs ["deadlock"])) = some s ∧
      run pollSchedule s = some t ∧ t.done < 2 ∧ t.main ≠ .returned :=
  have hs : Reachable (mainFuncs ["deadlock"]) _ := ⟨crossScheduleInverted, rfl⟩
  have h := (crossed_never_completes ["deadlock"] (by decide)).2 _ hs
    ⟨by decide, by decide, by decide⟩ _ ⟨pollSchedule, rfl⟩
  ⟨_, _, rfl, rfl, h.2.1, h.2.2.1⟩

/-! ### The `nolock` roster: no deadlock -/

theorem remaining_next (l : Loc) :
    (∀ k n, code l = .sleep k n → remaining n < remaining l) ∧
    (∀ m n, code l = .lock m n → remaining n < remaining l) ∧
    (∀ m n, code l = .unlock m n → remaining n < remaining l) ∧
    (∀ n, code l = .load n → remaining n < remaining l) ∧
    (∀ n, code l = .store n → remaining n < remaining l) ∧
    (∀ b e, code l = .whileDone b e → remaining e < remaining l) := by
  cases l <;> simp [code, remaining]

theorem remaining_zero (l : Loc) : remaining l = 0 ↔ returned l = true := by
  revert l; decide

theorem variant_thread_step (i : Fin 8) (s t : State) (h : stepThread i s = some t)
    (hlt : remaining (t.pc i) < remaining (s.pc i)) : variant t < variant s := by
  obtain ⟨-, hmain, hoth, -⟩ := stepThread_shape i s t h
  unfold variant
  rw [hmain]
  apply Nat.add_lt_add_right
  apply Finset.sum_lt_sum
  · intro j _
    by_cases e : j = i
    · subst e; exact le_of_lt hlt
    · rw [hoth j e]
  · exact ⟨i, Finset.mem_univ _, hlt⟩

theorem advance_free (i : Fin 8) (s : State) (hst : started s.main i = true)
    (hf : codeFree (s.pc i) = true) :
    ∃ t, step (.thread i) s = some t ∧ variant t < variant s := by
  obtain ⟨h1, -, h3, h4, h5, -⟩ := remaining_next (s.pc i)
  unfold codeFree at hf
  cases hc : code (s.pc i) with
  | ret => rw [hc] at hf; cases hf
  | lock m n => rw [hc] at hf; cases hf
  | whileDone b e => rw [hc] at hf; cases hf
  | sleep k n =>
    have hs : stepThread i s = some (goto s i n) := by
      simp [stepThread, hst, hc, exec]
    refine ⟨_, hs, variant_thread_step i s _ hs ?_⟩
    simp only [goto, Function.update_same]
    exact h1 k n hc
  | unlock m n =>
    have hs : stepThread i s =
        some { goto s i n with owner := Function.update s.owner m none } := by
      simp [stepThread, hst, hc, exec]
    refine ⟨_, hs, variant_thread_step i s _ hs ?_⟩
    simp only [goto, Function.update_same]
    exact h3 m n hc
  | load n =>
    have hs : stepThread i s =
        some { goto s i n with reg := Function.update s.reg i s.done } := by
      simp [stepThread, hst, hc, exec]
    refine ⟨_, hs, variant_thread_step i s _ hs ?_⟩
    simp only [goto, Function.update_same]
    exact h4 n hc
  | store n =>
    have hs : stepThread i s = some { goto s i n with done := s.reg i + 1 } := by
      simp [stepThread, hst, hc, exec]
    refine ⟨_, hs, variant_thread_step i s _ hs ?_⟩
    simp only [goto, Function.update_same]
    exact h5 n hc

theorem advance_lock (i : Fin 8) (s : State) (hst : started s.main i = true)
    (m : Mutex) (n : Loc) (hc : code (s.pc i) = .lock m n) (ho : s.owner m = none) :
    ∃ t, step (.thread i) s = some t ∧ variant t < variant s := by
  have hs : stepThread i s =
      some { goto s i n with owner := Function.update s.owner m (some i) } := by
    simp [stepThread, hst, hc, exec, ho]
  refine ⟨_, hs, variant_thread_step i s _ hs ?_⟩
  simp only [goto, Function.update_same]
  exact (remaining_next (s.pc i)).2.1 m n hc

theorem advance_while (i : Fin 8) (s : State) (hst : started s.main i = true)
    (b e : Loc) (hc : code (s.pc i) = .whileDone b e) (hd : 2 ≤ s.done) :
    ∃ t, step (.thread i) s = some t ∧ variant t < variant s := by
  have hs : stepThread i s = some (goto s i e) := by
    simp [stepThread, hst, hc, exec, not_lt.mpr hd]
  refine ⟨_, hs, variant_thread_step i s _ hs ?_⟩
  simp only [goto, Function.update_same]
  exact (remaining_next (s.pc i)).2.2.2.2.2 b e hc

theorem advance_main (s : State)
    (hm : ∀ i, s.main = .join i → returned (s.pc i) = true) (hne : s.main ≠ .returned) :
    ∃ t, step .main s = some t ∧ variant t < variant s := by
  cases hmain : s.main with
  | returned => exact absurd hmain hne
  | create i =>
    have hs : step .main s = some { s with main := match nextSlot i with
        | some k => .create k
        | none => .join 0 } := by
      simp only [step, stepMain, hmain]
    refine ⟨_, hs, ?_⟩
    unfold variant
    apply Nat.add_lt_add_left
    simp only [hmain]
    cases hn : nextSlot i with
    | none =>
      have := nextSlot_none i hn
      simp only [mainRemaining]
      show 8 - 0 < 16 - i.val
      omega
    | some k =>
      have := nextSlot_some i k hn
      have := k.isLt
      simp only [mainRemaining]
      omega
  | join i =>
    have hr := hm i hmain
    have hs : step .main s = some { s with main := match nextSlot i with
        | some k => .join k
        | none => .returned } := by
      simp only [step, stepMain, hmain, hr, if_true]
    refine ⟨_, hs, ?_⟩
    unfold variant
    apply Nat.add_lt_add_left
    simp only [hmain]
    cases hn : nextSlot i with
    | none =>
      have := i.isLt
      simp only [mainRemaining]
      omega
    | some k =>
      have := nextSlot_some i k hn
      have := k.isLt
      simp only [mainRemaining]
      omega

theorem nolock_roster_no_inverted (j : Fin 8) :
    Function.update funcsInit 4 Routine.normal j ≠ .inverted := by
  revert j; decide

theorem special_holder_free (l : Loc) (h : holds .speciallock l = true)
    (hr : routineOf l ≠ .inverted) : codeFree l = true := by
  revert l; decide

theorem global_holder_free (l : Loc) (h : holds .globallock l = true)
    (hs : holds .speciallock l = false) (hr : routineOf l ≠ .inverted) :
    codeFree l = true ∨ ∃ n, code l = .lock .speciallock n := by
  revert l; decide

theorem active_free_or_lock (l : Loc) (h : returned l = false) (hr : routineOf l ≠ .other) :
    codeFree l = true ∨ ∃ m n, code l = .lock m n := by
  revert l; decide

theorem waiter_free_or_while (l : Loc) (h : returned l = false) (hr : routineOf l = .other) :
    codeFree l = true ∨ ∃ b e, code l = .whileDone b e := by
  revert l; decide

theorem started_of_not_create (m : Main) (h : ∀ i, m ≠ .create i) (j : Fin 8) :
    started m j = true := by
  cases m with
  | create i => exact absurd rfl (h i)
  | join i => rfl
  | returned => rfl

theorem owner_none_of_not_exists (s : State) (m : Mutex) (h : ¬ ∃ j, s.owner m = some j) :
    s.owner m = none := by
  cases ho : s.owner m with
  | none => rfl
  | some j => exact absurd ⟨j, ho⟩ h

theorem nolock_progress (s : State) (hI : Inv (Function.update funcsInit 4 .normal) s)
    (hnf : ¬ ((∀ i, returned (s.pc i) = true) ∧ s.main = .returned)) :
    ∃ a t, step a s = some t ∧ variant t < variant s := by
  by_cases hcre : ∃ i, s.main = .create i
  · obtain ⟨i, hi⟩ := hcre
    obtain ⟨t, ht, hv⟩ := advance_main s (fun k hk => by rw [hi] at hk; cases hk)
      (by rw [hi]; exact fun e => by cases e)
    exact ⟨_, t, ht, hv⟩
  have hstart : ∀ j, started s.main j = true :=
    started_of_not_create _ (fun i e => hcre ⟨i, e⟩)
  have hninv : ∀ j, routineOf (s.pc j) ≠ .inverted := fun j => by
    rw [hI.routine j]; exact nolock_roster_no_inverted j
  by_cases hS : ∃ j, s.owner .speciallock = some j
  · obtain ⟨j, hj⟩ := hS
    have hf := special_holder_free _ ((hI.own _ j).mp hj) (hninv j)
    obtain ⟨t, ht, hv⟩ := advance_free j s (hstart j) hf
    exact ⟨_, t, ht, hv⟩
  have hSn := owner_none_of_not_exists s _ hS
  by_cases hG : ∃ j, s.owner .globallock = some j
  · obtain ⟨j, hj⟩ := hG
    have hns : holds .speciallock (s.pc j) = false := by
      cases hh : holds .speciallock (s.pc j) with
      | false => rfl
      | true => exact absurd ⟨j, (hI.own _ j).mpr hh⟩ hS
    rcases global_holder_free _ ((hI.own _ j).mp hj) hns (hninv j) with hf | ⟨n, hn⟩
    · obtain ⟨t, ht, hv⟩ := advance_free j s (hstart j) hf
      exact ⟨_, t, ht, hv⟩
    · obtain ⟨t, ht, hv⟩ := advance_lock j s (hstart j) _ n hn hSn
      exact ⟨_, t, ht, hv⟩
  have hGn := owner_none_of_not_exists s _ hG
  have hfree : ∀ m, s.owner m = none := by
    intro m; cases m
    · exact hGn
    · exact hSn
  by_cases hact : ∃ j, returned (s.pc j) = false ∧ routineOf (s.pc j) ≠ .other
  · obtain ⟨j, hr, hro⟩ := hact
    rcases active_free_or_lock _ hr hro with hf | ⟨m, n, hn⟩
    · obtain ⟨t, ht, hv⟩ := advance_free j s (hstart j) hf
      exact ⟨_, t, ht, hv⟩
    · obtain ⟨t, ht, hv⟩ := advance_lock j s (hstart j) m n hn (hfree m)
      exact ⟨_, t, ht, hv⟩
  have hret : ∀ j, routineOf (s.pc j) ≠ .other → returned (s.pc j) = true := by
    intro j hro
    cases hr : returned (s.pc j) with
    | true => rfl
    | false => exact absurd ⟨j, hr, hro⟩ hact
  have hdone : 2 ≤ s.done := by
    rw [hI.count]
    have hsub : ({0, 4} : Finset (Fin 8)) ⊆
        Finset.univ.filter (fun j => passed (s.pc j) = true) := by
      intro j hj
      simp only [Finset.mem_insert, Finset.mem_singleton] at hj
      simp only [Finset.mem_filter, Finset.mem_univ, true_and]
      have hn : routineOf (s.pc j) = .normal := by
        rw [hI.routine j]
        rcases hj with e | e <;> subst e <;> decide
      exact returned_normal_passed _ (hret j (by rw [hn]; decide)) (Or.inl hn)
    have := Finset.card_le_card hsub
    have h2 : ({0, 4} : Finset (Fin 8)).card = 2 := by decide
    unfold passedCount
    omega
  by_cases hw : ∃ j, returned (s.pc j) = false
  · obtain ⟨j, hr⟩ := hw
    have hro : routineOf (s.pc j) = .other := by
      by_contra hne
      rw [hret j hne] at hr; cases hr
    rcases waiter_free_or_while _ hr hro with hf | ⟨b, e, hbe⟩
    · obtain ⟨t, ht, hv⟩ := advance_free j s (hstart j) hf
      exact ⟨_, t, ht, hv⟩
    · obtain ⟨t, ht, hv⟩ := advance_while j s (hstart j) b e hbe hdone
      exact ⟨_, t, ht, hv⟩
  have hall : ∀ j, returned (s.pc j) = true := by
    intro j
    cases hr : returned (s.pc j) with
    | true => rfl
    | false => exact absurd ⟨j, hr⟩ hw
  obtain ⟨t, ht, hv⟩ := advance_main s (fun k _ => hall k) (fun e => hnf ⟨hall, e⟩)
  exact ⟨_, t, ht, hv⟩

theorem nolock_can_finish (n : Nat) :
    ∀ s, Inv (Function.update funcsInit 4 .normal) s → variant s = n →
      ∃ t, Reach s t ∧ (∀ i, returned (t.pc i) = true) ∧ t.main = .returned := by
  induction n using Nat.strong_induction_on with
  | _ n ih =>
    intro s hI hn
    by_cases hfin : (∀ i, returned (s.pc i) = true) ∧ s.main = .returned
    · exact ⟨s, reach_refl s, hfin.1, hfin.2⟩
    · obtain ⟨a, u, hstep, hv⟩ := nolock_progress s hI hfin
      obtain ⟨t, hreach, hall, hm⟩ :=
        ih (variant u) (hn ▸ hv) u (inv_step _ a s u hI hstep) rfl
      exact ⟨t, reach_trans s u t (reach_step a s u hstep) hreach, hall, hm⟩

theorem lock_while_holding (l : Loc) (m m' : Mutex) (n : Loc) (h : holds m l = true)
    (hc : code l = .lock m' n) (hr : routineOf l ≠ .inverted) : m' = .speciallock := by
  cases l <;> cases hc <;> revert h hr <;> revert m <;> decide

theorem lock_while_holding_special (l : Loc) (m' : Mutex) (n : Loc)
    (h : holds .speciallock l = true) (hc : code l = .lock m' n) :
    routineOf l = .inverted := by
  cases l <;> cases hc <;> revert h <;> decide

theorem nolock_not_deadlocked (s : State) (hI : Inv (Function.update funcsInit 4 .normal) s) :
    ¬ Deadlocked s := by
  rintro ⟨D, ⟨i, hi⟩, hD⟩
  have hninv : ∀ j, routineOf (s.pc j) ≠ .inverted := fun j => by
    rw [hI.routine j]; exact nolock_roster_no_inverted j
  obtain ⟨m, -, j, hj, hoj⟩ := hD i hi
  obtain ⟨m', ⟨-, ⟨n', hc'⟩, -⟩, k, hk, hok⟩ := hD j hj
  have hm' := lock_while_holding _ m m' n' ((hI.own m j).mp hoj) hc' (hninv j)
  subst hm'
  obtain ⟨m'', ⟨-, ⟨n'', hc''⟩, -⟩, -⟩ := hD k hk
  exact hninv k (lock_while_holding_special _ m'' n'' ((hI.own _ k).mp hok) hc'')

/-- C3: in the `nolock` roster no reachable state is a deadlock: no set of threads is
blocked on mutexes owned within the set, no thread owns `speciallock` while blocked on
`globallock`, and from every reachable state some interleaving reaches a state in
which all eight threads have returned (and `main` has returned from its joins). -/
theorem nolock_no_deadlock (argv : List String) (hno : argv.get? 1 = some "nolock")
    (s : State) (hs : Reachable (mainFuncs argv) s) :
    ¬ Deadlocked s ∧
    (∀ i, ¬ (s.owner .speciallock = some i ∧ blockedOn s i .globallock)) ∧
    ∃ t, Reach s t ∧ (∀ i, returned (t.pc i) = true) ∧ t.main = .returned := by
  have hI := inv_reachable _ s hs
  rw [nolock_funcs argv hno] at hI
  refine ⟨nolock_not_deadlocked s hI, ?_, nolock_can_finish _ s hI rfl⟩
  rintro i ⟨ho, -, ⟨n, hc⟩, -⟩
  have := lock_while_holding_special _ _ n ((hI.own _ i).mp ho) hc
  rw [hI.routine i] at this
  exact nolock_roster_no_inverted i this

theorem nolock_no_deadlock_witness :
    ∃ s, run holdSchedule (init (mainFuncs ["deadlock", "nolock"])) = some s ∧
      s.owner .globallock = some 0 ∧ ¬ Deadlocked s ∧
      ∃ t, Reach s t ∧ (∀ i, returned (t.pc i) = true) ∧ t.main = .returned :=
  have h := nolock_no_deadlock ["deadlock", "nolock"] (by decide) _ ⟨holdSchedule, rfl⟩
  ⟨_, rfl, by decide, h.1, h.2.2⟩

end Deadlock
